import Mathlib

set_option maxRecDepth 10000

/-!
Shallow embedding of the price-refresh pipeline of the pc-configurator
repository, translated from `backend/update_all_prices.py` (with the
redundant copies `backend/step2_probe_price.py` / `backend/step3_update_one.py`
for the shared candidate-selection function).

Python strings are modelled as `String` / `List Char`; `decimal.Decimal`
values as `PyDec` (exact rationals plus the special values the constructor
can produce); a raised exception as `Except.error ()`; Python `None` as
`Option.none`.
-/

namespace PC

/-! ## Character classes -/

/-- The apostrophe character (U+0027). -/
def apos : Char := Char.ofNat 39

def nbsp : Char := ' '

def nnbsp : Char := ' '

def thinsp : Char := ' '

/-- Python `\s` / `str.strip()` whitespace, restricted to the characters that
can occur here (ASCII whitespace plus the three Unicode spaces the script
manipulates). -/
def pyIsSpace (c : Char) : Bool :=
  c = ' ' || c = '\t' || c = '\n' || c = '\r' || c = '\x0b' || c = '\x0c' ||
  c = nbsp || c = nnbsp || c = thinsp

/-- Python `\w` (word character), restricted to the alphabet the repository's
patterns can meet: ASCII alphanumerics, underscore, and `č`/`Č`. -/
def isWordC (c : Char) : Bool := c.isAlphanum || c = '_' || c = 'č' || c = 'Č'

/-- The separator class `[ \.   ']` used both as the thousands
separator class of `PRICE_PATTERN` and as the strip class of
`normalize_candidate`. -/
def priceSep (c : Char) : Bool :=
  c = ' ' || c = '.' || c = nbsp || c = nnbsp || c = thinsp || c = apos

/-- Python `\\d` over the alphabet this pipeline manipulates: the ten ASCII
digits. -/
def isDig (c : Char) : Bool :=
  c = '0' || c = '1' || c = '2' || c = '3' || c = '4' ||
  c = '5' || c = '6' || c = '7' || c = '8' || c = '9'

/-- `priceSep` without the dot: the separators that are never a decimal
separator candidate. -/
def spaceSep (c : Char) : Bool :=
  c = ' ' || c = nbsp || c = nnbsp || c = thinsp || c = apos

/-! ## `normalize_spaces` -/

/-- Pointwise action of `normalize_spaces`: NBSP, narrow NBSP and thin space
become a plain space. -/
def nspChar (c : Char) : Char :=
  if c = nbsp ∨ c = nnbsp ∨ c = thinsp then ' ' else c

def normSpacesL (cs : List Char) : List Char := cs.map nspChar

/-- `normalize_spaces(s)` from update_all_prices.py. -/
def normalize_spaces (s : String) : String := String.mk (normSpacesL s.data)

/-! ## Python `str.strip()` -/

def dropTrailing (p : Char → Bool) (cs : List Char) : List Char :=
  (cs.reverse.dropWhile p).reverse

def pyStrip (cs : List Char) : List Char :=
  dropTrailing pyIsSpace (cs.dropWhile pyIsSpace)

/-! ## `re.sub(r",\s*-\b", "", s)`

A match is a comma, the maximal run of whitespace after it, and a dash that
is followed by a word character (`\b` after the non-word `-` requires a word
character next). The match is removed and scanning resumes after the dash. -/

def wsDashTail (cs : List Char) : Option (List Char) :=
  match cs.dropWhile pyIsSpace with
  | '-' :: c :: t => if isWordC c then some (c :: t) else none
  | _ => none

def commaDashAux : Nat → List Char → List Char
  | 0, cs => cs
  | _ + 1, [] => []
  | n + 1, c :: rest =>
    if c = ',' then
      match wsDashTail rest with
      | some rest2 => commaDashAux n rest2
      | none => c :: commaDashAux n rest
    else c :: commaDashAux n rest

def commaDashSub (cs : List Char) : List Char := commaDashAux cs.length cs

/-! ## `re.sub(r"\b(Kč|CZK|EUR|€|\$)\b", "", t, flags=re.IGNORECASE)`

`Kč`/`CZK`/`EUR` start and end with word characters, so `\b` on each side
demands a non-word neighbour (or the string edge); `€`/`$` are non-word, so
`\b` on each side demands a word neighbour. Matching is case-insensitive and
alternatives are tried left to right; scanning resumes after a match, with
the original left neighbour kept for later boundary tests. -/

def asciiLower (c : Char) : Char := if c = 'Č' then 'č' else c.toLower

def lowerL (cs : List Char) : List Char := cs.map asciiLower

def ciMatch (w : List Char) (cs : List Char) : Bool :=
  lowerL (cs.take w.length) = w

/-- Try to match one currency alternative at the current position.
`prev` is the character just before the position (`none` at the start).
Returns the length of the match. -/
def tryCurrency (prev : Option Char) (cs : List Char) : Option Nat :=
  let bw : Bool := match prev with | none => true | some p => !isWordC p
  let bs : Bool := match prev with | none => false | some p => isWordC p
  let afterW : Nat → Bool := fun n =>
    match cs.drop n with | [] => true | c :: _ => !isWordC c
  let afterS : Nat → Bool := fun n =>
    match cs.drop n with | [] => false | c :: _ => isWordC c
  if bw && ciMatch ['k', 'č'] cs && afterW 2 then some 2
  else if bw && ciMatch ['c', 'z', 'k'] cs && afterW 3 then some 3
  else if bw && ciMatch ['e', 'u', 'r'] cs && afterW 3 then some 3
  else if bs && ciMatch ['€'] cs && afterS 1 then some 1
  else if bs && ciMatch ['$'] cs && afterS 1 then some 1
  else none

def currencyAux : Nat → Option Char → List Char → List Char
  | 0, _, cs => cs
  | _ + 1, _, [] => []
  | n + 1, prev, c :: rest =>
    match tryCurrency prev (c :: rest) with
    | some len => currencyAux n ((c :: rest).get? (len - 1)) ((c :: rest).drop len)
    | none => c :: currencyAux n (some c) rest

def currencySub (cs : List Char) : List Char := currencyAux cs.length none cs

/-! ## `PRICE_PATTERN.findall`

```
(?:\d{1,3}(?:[ \.   ']\d{3})+(?:[.,]\d{1,2})?|\d+(?:[.,]\d{1,2})?)
```

Specialised leftmost, non-overlapping matcher.  At each position the grouped
alternative is tried first.  Its `\d{1,3}` can never profit from giving back
digits (a shorter take leaves a digit where the separator must be), so the
grouped alternative matches exactly when the maximal digit run has length
1–3 and at least one `[sep]\d{3}` group follows; groups are consumed
greedily, then the optional `[.,]\d{1,2}` decimal part, greedily. -/

def takeDigits : List Char → List Char × List Char
  | [] => ([], [])
  | c :: rest =>
    if isDig c then
      let (ds, r) := takeDigits rest
      (c :: ds, r)
    else ([], c :: rest)

def matchGroups : List Char → List Char × List Char
  | [] => ([], [])
  | s :: rest =>
    if priceSep s then
      match rest with
      | d1 :: d2 :: d3 :: r2 =>
        if isDig d1 && isDig d2 && isDig d3 then
          let (g, r3) := matchGroups r2
          (s :: d1 :: d2 :: d3 :: g, r3)
        else ([], s :: rest)
      | _ => ([], s :: rest)
    else ([], s :: rest)

/-- The optional decimal part `(?:[.,]\d{1,2})?`, greedy. -/
def matchDec : List Char → List Char × List Char
  | c :: d1 :: d2 :: rest =>
    if (c = '.' || c = ',') && isDig d1 then
      if isDig d2 then ([c, d1, d2], rest) else ([c, d1], d2 :: rest)
    else ([], c :: d1 :: d2 :: rest)
  | [c, d1] =>
    if (c = '.' || c = ',') && isDig d1 then ([c, d1], []) else ([], [c, d1])
  | cs => ([], cs)

def matchAlt1 (cs : List Char) : Option (List Char × List Char) :=
  let (ds, r1) := takeDigits cs
  if ds.length = 0 || 3 < ds.length then none
  else
    let (g, r2) := matchGroups r1
    if g = [] then none
    else
      let (dc, r3) := matchDec r2
      some (ds ++ g ++ dc, r3)

def matchAlt2 (cs : List Char) : Option (List Char × List Char) :=
  let (ds, r1) := takeDigits cs
  if ds = [] then none
  else
    let (dc, r2) := matchDec r1
    some (ds ++ dc, r2)

def findallAux : Nat → List Char → List (List Char)
  | 0, _ => []
  | _ + 1, [] => []
  | n + 1, c :: rest =>
    match matchAlt1 (c :: rest) with
    | some (tok, r) => tok :: findallAux n r
    | none =>
      match matchAlt2 (c :: rest) with
      | some (tok, r) => tok :: findallAux n r
      | none => findallAux n rest

def findallP (cs : List Char) : List (List Char) := findallAux cs.length cs

/-- `find_price_candidates(text)` from update_all_prices.py. -/
def find_price_candidates (text : String) : List String :=
  if text.data = [] then []
  else (findallP (currencySub (commaDashSub (normSpacesL text.data)))).map String.mk

/-! ## `decimal.Decimal` -/

/-- A value produced by the `decimal.Decimal` constructor: a finite exact
rational, or one of the special values. -/
inductive PyDec where
  | num (q : ℚ)
  | nan
  | inf
  | ninf
deriving DecidableEq, Repr

deriving instance DecidableEq for Except

def digitVal (c : Char) : ℕ := c.toNat - 48

def digitsToNat (cs : List Char) : ℕ := cs.foldl (fun a c => 10 * a + digitVal c) 0

def splitSign : List Char → Bool × List Char
  | '+' :: r => (false, r)
  | '-' :: r => (true, r)
  | r => (false, r)

def parseExpPart : List Char → Option ℤ
  | [] => some 0
  | c :: r =>
    if c = 'e' ∨ c = 'E' then
      let (neg, r2) := splitSign r
      let (ds, r3) := takeDigits r2
      if ds = [] ∨ r3 ≠ [] then none
      else some (if neg then -(digitsToNat ds : ℤ) else (digitsToNat ds : ℤ))
    else none

def parseFinite (cs : List Char) : Option ℚ :=
  let ip := (takeDigits cs).1
  match (takeDigits cs).2 with
  | '.' :: r2 =>
    let fp := (takeDigits r2).1
    let r3 := (takeDigits r2).2
    if ip = [] ∧ fp = [] then none
    else
      match parseExpPart r3 with
      | some e => some (((digitsToNat ip : ℚ) + (digitsToNat fp : ℚ) / 10 ^ fp.length) * 10 ^ e)
      | none => none
  | _ =>
    if ip = [] then none
    else
      match parseExpPart (takeDigits cs).2 with
      | some e => some ((digitsToNat ip : ℚ) * 10 ^ e)
      | none => none

/-- The `infinity` forms of the numeric-string grammar (already lowercased). -/
def isInfStr (low : List Char) : Bool :=
  low = ['i', 'n', 'f'] || low = ['i', 'n', 'f', 'i', 'n', 'i', 't', 'y']

/-- The `nan`/`snan` forms of the numeric-string grammar (already lowercased). -/
def isNanStr (low : List Char) : Bool :=
  match low with
  | 'n' :: 'a' :: 'n' :: t => t.all isDig
  | 's' :: 'n' :: 'a' :: 'n' :: t => t.all isDig
  | _ => false

/-- The numeric-string grammar of the `decimal.Decimal` constructor
(`[sign] (digits [. digits] | . digits) [exponent] | [sign] infinity |
[sign] (nan|snan) digits*`, case-insensitive).  `none` models the raised
`decimal.InvalidOperation`.  Surrounding whitespace and underscores cannot
occur in the strings this pipeline builds and are not modelled. -/
def pyDecimalOfChars (cs : List Char) : Option PyDec :=
  let neg := (splitSign cs).1
  let r := (splitSign cs).2
  let low := lowerL r
  if isInfStr low then some (if neg then .ninf else .inf)
  else if isNanStr low then some .nan
  else
    match parseFinite r with
    | some q => some (.num (if neg then -q else q))
    | none => none

/-! ## `normalize_candidate`

`dec_pos = max(raw.rfind("."), raw.rfind(","))` is the index of the
rightmost dot-or-comma; `raw[:dec_pos]` / `raw[dec_pos+1:]` are the parts
before and after it, here produced directly by `splitRightmostSep`.  The
test `len(raw) - dec_pos - 1 in (1, 2)` is the length of the part after it. -/

def splitRightmostSep : List Char → Option (List Char × Char × List Char)
  | [] => none
  | c :: rest =>
    match splitRightmostSep rest with
    | some (p, s, q) => some (c :: p, s, q)
    | none => if c = '.' ∨ c = ',' then some ([], c, rest) else none

/-- The decimal-separator branch: strip the separator class from the integer
part, strip non-digits from the fraction, parse `int.frac`. -/
def decBranch (pre suf : List Char) : Except Unit (Option PyDec) :=
  let intPart := pre.filter (fun c => !priceSep c)
  let decPart := suf.filter isDig
  if intPart = [] then .ok none
  else
    match pyDecimalOfChars (intPart ++ '.' :: decPart) with
    | some d => .ok (some d)
    | none => .error ()

/-- The thousands-only branch: strip the separator class and the comma,
parse the remainder as an integer. -/
def intBranch (raw : List Char) : Except Unit (Option PyDec) :=
  let intOnly := raw.filter (fun c => !(priceSep c || c = ','))
  if intOnly = [] then .ok none
  else
    match pyDecimalOfChars intOnly with
    | some d => .ok (some d)
    | none => .error ()

def normalize_candidateL (cs : List Char) : Except Unit (Option PyDec) :=
  if cs = [] then .ok none
  else
    let raw := commaDashSub (pyStrip (normSpacesL cs))
    match splitRightmostSep raw with
    | some (pre, _, suf) =>
      if suf.length = 1 ∨ suf.length = 2 then decBranch pre suf else intBranch raw
    | none => intBranch raw

/-- `normalize_candidate(s)` from update_all_prices.py.  `.error ()` models
the `decimal.InvalidOperation` the `Decimal` constructor can raise. -/
def normalize_candidate (s : String) : Except Unit (Option PyDec) :=
  normalize_candidateL s.data

/-! ## `best_price_from_text` -/

/-- Python `a > b` on Decimals: ordering a NaN raises. -/
def pyGtE : PyDec → PyDec → Except Unit Bool
  | .nan, _ => .error ()
  | _, .nan => .error ()
  | .inf, .inf => .ok false
  | .inf, _ => .ok true
  | _, .inf => .ok false
  | .ninf, .ninf => .ok false
  | .ninf, _ => .ok false
  | _, .ninf => .ok true
  | .num a, .num b => .ok (decide (b < a))

/-- Python `v >= 100` on a Decimal. -/
def pyGe100 : PyDec → Except Unit Bool
  | .nan => .error ()
  | .inf => .ok true
  | .ninf => .ok false
  | .num q => .ok (decide ((100 : ℚ) ≤ q))

/-- One step of Python `max`: keep the current maximum unless the next item
is strictly greater. -/
def pyMax2 (a b : PyDec) : Except Unit PyDec :=
  match pyGtE b a with
  | .error e => .error e
  | .ok true => .ok b
  | .ok false => .ok a

def pyMaxFold : PyDec → List PyDec → Except Unit PyDec
  | a, [] => .ok a
  | a, b :: rest =>
    match pyMax2 a b with
    | .error e => .error e
    | .ok m => pyMaxFold m rest

def pyFilterGe100 : List PyDec → Except Unit (List PyDec)
  | [] => .ok []
  | v :: vs =>
    match pyGe100 v with
    | .error e => .error e
    | .ok b =>
      match pyFilterGe100 vs with
      | .error e => .error e
      | .ok ws => .ok (if b then v :: ws else ws)

/-- The `vals` list: normalize every token, keep the non-`None` results,
propagating any raised exception. -/
def collectVals : List String → Except Unit (List PyDec)
  | [] => .ok []
  | t :: ts =>
    match normalize_candidate t with
    | .error e => .error e
    | .ok none => collectVals ts
    | .ok (some v) =>
      match collectVals ts with
      | .error e => .error e
      | .ok vs => .ok (v :: vs)

/-- `best_price_from_text(text)` from update_all_prices.py: collect the
normalized candidates, and return `max(big) if big else max(vals)` where
`big = [v for v in vals if v >= 100]`. -/
def best_price_from_text (text : String) : Except Unit (Option PyDec) :=
  match collectVals (find_price_candidates text) with
  | .error e => .error e
  | .ok [] => .ok none
  | .ok (v :: vs) =>
    match pyFilterGe100 (v :: vs) with
    | .error e => .error e
    | .ok [] =>
      match pyMaxFold v vs with
      | .error e => .error e
      | .ok m => .ok (some m)
    | .ok (w :: ws) =>
      match pyMaxFold w ws with
      | .error e => .error e
      | .ok m => .ok (some m)

/-- `pick_best_price_from_text(text)` from step2_probe_price.py and
step3_update_one.py (identical selection logic; the `debug` parameter only
prints). -/
def pick_best_price_from_text (text : String) : Except Unit (Option PyDec) :=
  match collectVals (find_price_candidates text) with
  | .error e => .error e
  | .ok [] => .ok none
  | .ok (v :: vs) =>
    match pyFilterGe100 (v :: vs) with
    | .error e => .error e
    | .ok [] =>
      match pyMaxFold v vs with
      | .error e => .error e
      | .ok m => .ok (some m)
    | .ok (w :: ws) =>
      match pyMaxFold w ws with
      | .error e => .error e
      | .ok m => .ok (some m)

/-! ## `as_kc_int` -/

/-- `Decimal.to_integral_value(rounding=ROUND_HALF_UP)`: round half away
from zero. -/
def roundHalfUp (q : ℚ) : ℤ := if 0 ≤ q then ⌊q + 1 / 2⌋ else -⌊-q + 1 / 2⌋

/-- `as_kc_int(dec)`; `int()` of a NaN/infinite Decimal raises. -/
def as_kc_int : PyDec → Except Unit ℤ
  | .num q => .ok (roundHalfUp q)
  | _ => .error ()

/-! ## `is_discontinued` -/

def isPrefixL : List Char → List Char → Bool
  | [], _ => true
  | _ :: _, [] => false
  | a :: xs, b :: ys => a = b && isPrefixL xs ys

def containsL (needle : List Char) : List Char → Bool
  | [] => isPrefixL needle []
  | b :: rest => isPrefixL needle (b :: rest) || containsL needle rest

def terminalMarker : String := "Prodej skončil"

/-- `is_discontinued(html)`: the fixed marker phrase occurs in the document. -/
def is_discontinued (html : String) : Bool :=
  if html = "" then false else containsL terminalMarker.data html.data

/-! ## `extract_price`

The HTML parse (BeautifulSoup) is external; a parsed document is modelled by
what the cascade queries of it: the text of the element matched by a CSS
selector, the `content` of the `product:price:amount` / `og:price:amount`
meta tag (`none` when the tag or its attribute is missing), the
`itemprop=price` element (its optional `content` attribute and its text),
and the texts of all elements whose class or id matches `price`
(class matches first, then id matches, as in the source). -/
structure Doc where
  select_one : String → Option String
  metaPrice : Option String
  itemprop : Option (Option String × String)
  priceTexts : List String

def tier4Fold : List String → Option PyDec → Except Unit (Option PyDec)
  | [], best => .ok best
  | t :: ts, best =>
    match best_price_from_text t with
    | .error e => .error e
    | .ok none => tier4Fold ts best
    | .ok (some v) =>
      match best with
      | none => tier4Fold ts (some v)
      | some b =>
        match pyMax2 b v with
        | .error e => .error e
        | .ok m => tier4Fold ts (some m)

def tier3 (doc : Doc) : Except Unit (Option PyDec) :=
  match doc.itemprop with
  | some (content, txt) =>
    let candidate :=
      match content with
      | some c => if c = "" then txt else c
      | none => txt
    match best_price_from_text candidate with
    | .error e => .error e
    | .ok (some p) => .ok (some p)
    | .ok none => tier4Fold doc.priceTexts none
  | none => tier4Fold doc.priceTexts none

def tier2 (doc : Doc) : Except Unit (Option PyDec) :=
  match doc.metaPrice with
  | some c =>
    if c ≠ "" then
      match best_price_from_text c with
      | .error e => .error e
      | .ok (some p) => .ok (some p)
      | .ok none => tier3 doc
    else tier3 doc
  | none => tier3 doc

/-- `extract_price(html, selector)` over the abstract document. -/
def extract_price (doc : Doc) (selector : Option String) : Except Unit (Option PyDec) :=
  match selector with
  | some sel =>
    if sel ≠ "" then
      match doc.select_one sel with
      | some elText =>
        match best_price_from_text elText with
        | .error e => .error e
        | .ok (some p) => .ok (some p)
        | .ok none => tier2 doc
      | none => tier2 doc
    else tier2 doc
  | none => tier2 doc

/-! ## `get_html`

One `Attempt` is what the environment answers to one `sess.get`: a status
code with a body, or a transport exception.  The function returns
`(html, status)` as in the source plus the log of the back-off sleeps
(`time.sleep(pause * (i + 1))`, `i` 0-based).  Statuses ≥ 400 other than
404/403/429 make `raise_for_status` raise; the handler records the
response's status and sleeps.  A transport exception has no response, so
the recorded status is `None`.  A non-error status without usable body
(e.g. 200 with empty text) falls through the loop without sleeping. -/

inductive Attempt where
  | resp (status : Nat) (body : String)
  | exc
deriving DecidableEq, Repr

def get_htmlAux (pause : ℚ) : List Attempt → Nat → Option Nat → (Option String × Option Nat) × List ℚ
  | [], _, last => ((none, last), [])
  | .resp st body :: rest, i, _ =>
    if st = 200 ∧ body ≠ "" then ((some body, some 200), [])
    else if st = 404 then ((none, some 404), [])
    else if st = 403 ∨ st = 429 then
      let r := get_htmlAux pause rest (i + 1) (some st)
      (r.1, pause * (i : ℚ) :: r.2)
    else if 400 ≤ st then
      let r := get_htmlAux pause rest (i + 1) (some st)
      (r.1, pause * (i : ℚ) :: r.2)
    else get_htmlAux pause rest (i + 1) (some st)
  | .exc :: rest, i, _ =>
    let r := get_htmlAux pause rest (i + 1) none
    (r.1, pause * (i : ℚ) :: r.2)

/-- `get_html(url, referer, retries, pause)`: run up to `retries` attempts. -/
def get_html (pause : ℚ) (retries : Nat) (attempts : List Attempt) :
    (Option String × Option Nat) × List ℚ :=
  get_htmlAux pause (attempts.take retries) 1 none

/-! ## The per-product body of `main` -/

/-- The mutable state of one catalog row read by the orchestrator
(`SELECT id, url, price`; the loop variable `old_price` is the row's current
`price`). -/
structure Row where
  price : Option ℤ
  old_price : Option ℤ
deriving DecidableEq, Repr

inductive Reason where
  | blocked403
  | fetchFail
  | noPrice
  | exnCaught
deriving DecidableEq, Repr

/-- The reconciliation decisions of the spec, naming the branches of the
per-product body. -/
inductive Decision where
  | setTerminal
  | setPrice (v : ℤ)
  | noChange
  | defer (r : Reason)
deriving DecidableEq, Repr

structure StatsD where
  processed : Nat
  changed : Nat
  errors : Nat
  errors403 : Nat
deriving DecidableEq, Repr

structure StepResult where
  row : Row
  decision : Decision
  write : Option (ℤ × Option ℤ)
  stats : StatsD
deriving DecidableEq, Repr

/-- `update_price(conn, prod_id, new_price, prev_price)`: `old_price` is
written only when `prev_price` is non-null. -/
def update_price (row : Row) (newPrice : ℤ) (prevPrice : Option ℤ) : Row :=
  match prevPrice with
  | some p => ⟨some newPrice, some p⟩
  | none => ⟨some newPrice, row.old_price⟩

/-- Python truthiness of the `html` value: `None` and `""` are falsy. -/
def truthyStr : Option String → Option String
  | some h => if h = "" then none else some h
  | none => none

/-- The terminal branch (`price = 1`), appearing twice in `main`, for HTTP
404 and for a discontinued document. -/
def terminalStep (dry : Bool) (row : Row) : StepResult :=
  if row.price = some 1 then ⟨row, .noChange, none, ⟨1, 0, 0, 0⟩⟩
  else if dry then ⟨row, .setTerminal, none, ⟨1, 0, 0, 0⟩⟩
  else ⟨update_price row 1 row.price, .setTerminal, some (1, row.price), ⟨1, 1, 0, 0⟩⟩

/-- The per-product body of `main` in update_all_prices.py: 404 first, then
the discontinuation marker, then missing HTML (403 counted apart), then
extraction and the compare-and-write.  The surrounding `try/except` turns
any raised exception into an error count with no write. -/
def stepProduct (dry : Bool) (html : Option String) (status : Option Nat)
    (doc : Doc) (selector : Option String) (row : Row) : StepResult :=
  if status = some 404 then terminalStep dry row
  else
    match truthyStr html with
    | some h =>
      if is_discontinued h then terminalStep dry row
      else
        match extract_price doc selector with
        | .error _ => ⟨row, .defer .exnCaught, none, ⟨1, 0, 1, 0⟩⟩
        | .ok none => ⟨row, .defer .noPrice, none, ⟨1, 0, 1, 0⟩⟩
        | .ok (some d) =>
          match as_kc_int d with
          | .error _ => ⟨row, .defer .exnCaught, none, ⟨1, 0, 1, 0⟩⟩
          | .ok np =>
            if row.price = some np then ⟨row, .noChange, none, ⟨1, 0, 0, 0⟩⟩
            else if dry then ⟨row, .setPrice np, none, ⟨1, 0, 0, 0⟩⟩
            else ⟨update_price row np row.price, .setPrice np, some (np, row.price), ⟨1, 1, 0, 0⟩⟩
    | none =>
      if status = some 403 then ⟨row, .defer .blocked403, none, ⟨1, 0, 0, 1⟩⟩
      else ⟨row, .defer .fetchFail, none, ⟨1, 0, 1, 0⟩⟩

/-- The domain → CSS selector table. -/
def DOMAIN_SELECTORS : List (String × String) :=
  [("www.alza.cz", ".price-box__primary-price__value"),
   ("www.czc.cz", ".price-vatin, .price__price")]


/-! # Verification

## Shape of the tokens `PRICE_PATTERN.findall` can produce -/

def headDig : List Char → Bool
  | [] => false
  | c :: _ => isDig c

def lastDig (cs : List Char) : Bool := headDig cs.reverse

def allAllowed (cs : List Char) : Bool := cs.all fun c => isDig c || priceSep c || c = ','

/-- Every non-dot separator in the list is immediately followed by three
digits (the shape a `[sep]\d{3}` thousands group forces). -/
def sepsOk : List Char → Bool
  | [] => true
  | c :: rest =>
    (if spaceSep c then
       match rest with
       | d1 :: d2 :: d3 :: _ => isDig d1 && isDig d2 && isDig d3
       | _ => false
     else true) && sepsOk rest

/-- Everything after a comma is a digit. -/
def commaOk : List Char → Bool
  | [] => true
  | c :: rest => if c = ',' then rest.all isDig else commaOk rest

def goodTok (cs : List Char) : Bool :=
  headDig cs && lastDig cs && allAllowed cs && sepsOk cs && commaOk cs

/-! ## Character-class facts -/

theorem isDig_elim {c : Char} (h : isDig c = true) :
    c = '0' ∨ c = '1' ∨ c = '2' ∨ c = '3' ∨ c = '4' ∨
    c = '5' ∨ c = '6' ∨ c = '7' ∨ c = '8' ∨ c = '9' := by
  simp only [isDig, Bool.or_eq_true, decide_eq_true_eq] at h
  tauto

theorem dig_not_priceSep {c : Char} (h : isDig c = true) : priceSep c = false := by
  rcases isDig_elim h with rfl | rfl | rfl | rfl | rfl | rfl | rfl | rfl | rfl | rfl <;> decide

theorem dig_not_spaceSep {c : Char} (h : isDig c = true) : spaceSep c = false := by
  rcases isDig_elim h with rfl | rfl | rfl | rfl | rfl | rfl | rfl | rfl | rfl | rfl <;> decide

theorem dig_ne_comma {c : Char} (h : isDig c = true) : c ≠ ',' := by
  rcases isDig_elim h with rfl | rfl | rfl | rfl | rfl | rfl | rfl | rfl | rfl | rfl <;> decide

theorem dig_ne_dot {c : Char} (h : isDig c = true) : c ≠ '.' := by
  rcases isDig_elim h with rfl | rfl | rfl | rfl | rfl | rfl | rfl | rfl | rfl | rfl <;> decide

theorem dig_ne_dash {c : Char} (h : isDig c = true) : c ≠ '-' := by
  rcases isDig_elim h with rfl | rfl | rfl | rfl | rfl | rfl | rfl | rfl | rfl | rfl <;> decide

theorem dig_not_space {c : Char} (h : isDig c = true) : pyIsSpace c = false := by
  rcases isDig_elim h with rfl | rfl | rfl | rfl | rfl | rfl | rfl | rfl | rfl | rfl <;> decide

theorem dig_nsp {c : Char} (h : isDig c = true) : nspChar c = c := by
  rcases isDig_elim h with rfl | rfl | rfl | rfl | rfl | rfl | rfl | rfl | rfl | rfl <;> decide

theorem dig_lower {c : Char} (h : isDig c = true) : asciiLower c = c := by
  rcases isDig_elim h with rfl | rfl | rfl | rfl | rfl | rfl | rfl | rfl | rfl | rfl <;> decide

theorem dig_ne_plus {c : Char} (h : isDig c = true) : c ≠ '+' := by
  rcases isDig_elim h with rfl | rfl | rfl | rfl | rfl | rfl | rfl | rfl | rfl | rfl <;> decide

theorem dig_ne_i {c : Char} (h : isDig c = true) : c ≠ 'i' := by
  rcases isDig_elim h with rfl | rfl | rfl | rfl | rfl | rfl | rfl | rfl | rfl | rfl <;> decide

theorem dig_ne_n {c : Char} (h : isDig c = true) : c ≠ 'n' := by
  rcases isDig_elim h with rfl | rfl | rfl | rfl | rfl | rfl | rfl | rfl | rfl | rfl <;> decide

theorem dig_ne_s {c : Char} (h : isDig c = true) : c ≠ 's' := by
  rcases isDig_elim h with rfl | rfl | rfl | rfl | rfl | rfl | rfl | rfl | rfl | rfl <;> decide

theorem spaceSep_elim {c : Char} (h : spaceSep c = true) :
    c = ' ' ∨ c = nbsp ∨ c = nnbsp ∨ c = thinsp ∨ c = apos := by
  simp only [spaceSep, Bool.or_eq_true, decide_eq_true_eq] at h
  tauto

theorem priceSep_elim {c : Char} (h : priceSep c = true) :
    spaceSep c = true ∨ c = '.' := by
  simp only [priceSep, Bool.or_eq_true, decide_eq_true_eq] at h
  simp only [spaceSep, Bool.or_eq_true, decide_eq_true_eq]
  tauto

theorem spaceSep_priceSep {c : Char} (h : spaceSep c = true) : priceSep c = true := by
  rcases spaceSep_elim h with rfl | rfl | rfl | rfl | rfl <;> decide

theorem priceSep_not_dig {c : Char} (h : priceSep c = true) : isDig c = false := by
  cases hd : isDig c
  · rfl
  · rw [dig_not_priceSep hd] at h; exact absurd h (by simp)

theorem dotComma_not_spaceSep {c : Char} (h : c = '.' ∨ c = ',') : spaceSep c = false := by
  rcases h with rfl | rfl <;> decide

theorem dotComma_not_dig {c : Char} (h : c = '.' ∨ c = ',') : isDig c = false := by
  rcases h with rfl | rfl <;> decide

/-! ## Matcher soundness -/

theorem takeDigits_spec (cs : List Char) :
    (takeDigits cs).1.all isDig = true ∧ (takeDigits cs).1 ++ (takeDigits cs).2 = cs := by
  induction cs with
  | nil => simp [takeDigits]
  | cons c rest ih =>
    by_cases h : isDig c = true
    · simp [takeDigits, h, ih.1, ih.2]
    · simp [takeDigits, h]

/-- The shape of the `(?:[sep]\d{3})+` part. -/
inductive GOK : List Char → Prop where
  | nil : GOK []
  | cons (s d1 d2 d3 : Char) (rest : List Char) (hs : priceSep s = true)
      (h1 : isDig d1 = true) (h2 : isDig d2 = true) (h3 : isDig d3 = true)
      (hr : GOK rest) : GOK (s :: d1 :: d2 :: d3 :: rest)

theorem matchGroups_spec : ∀ n cs, cs.length ≤ n →
    GOK (matchGroups cs).1 ∧ (matchGroups cs).1 ++ (matchGroups cs).2 = cs := by
  intro n
  induction n with
  | zero =>
    intro cs hcs
    have h0 : cs = [] := List.length_eq_zero.mp (Nat.le_zero.mp hcs)
    subst h0
    exact ⟨GOK.nil, rfl⟩
  | succ n ih =>
    intro cs hcs
    match cs with
    | [] => exact ⟨GOK.nil, rfl⟩
    | s :: [] =>
      by_cases hps : priceSep s = true <;> simp [matchGroups, hps] <;> exact GOK.nil
    | s :: [d1] =>
      by_cases hps : priceSep s = true <;> simp [matchGroups, hps] <;> exact GOK.nil
    | s :: [d1, d2] =>
      by_cases hps : priceSep s = true <;> simp [matchGroups, hps] <;> exact GOK.nil
    | s :: d1 :: d2 :: d3 :: r2 =>
      by_cases hps : priceSep s = true
      · by_cases hd : (isDig d1 && isDig d2 && isDig d3) = true
        · have hr2 : r2.length ≤ n := by
            simp only [List.length_cons] at hcs; omega
          obtain ⟨ihg, ihe⟩ := ih r2 hr2
          obtain ⟨hd1, hd2, hd3⟩ : isDig d1 = true ∧ isDig d2 = true ∧ isDig d3 = true := by
            simpa [Bool.and_eq_true, and_assoc] using hd
          constructor
          · simpa [matchGroups, hps, hd1, hd2, hd3] using
              GOK.cons s d1 d2 d3 _ hps hd1 hd2 hd3 ihg
          · simp [matchGroups, hps, hd1, hd2, hd3, ihe]
        · simp [matchGroups, hps, hd]
          exact GOK.nil
      · simp [matchGroups, hps]
        exact GOK.nil

/-- The shape of the optional `[.,]\d{1,2}` decimal part. -/
inductive DecShape : List Char → Prop where
  | nil : DecShape []
  | one (c d1 : Char) (hc : c = '.' ∨ c = ',') (h1 : isDig d1 = true) : DecShape [c, d1]
  | two (c d1 d2 : Char) (hc : c = '.' ∨ c = ',') (h1 : isDig d1 = true)
      (h2 : isDig d2 = true) : DecShape [c, d1, d2]

theorem matchDec_spec (cs : List Char) :
    DecShape (matchDec cs).1 ∧ (matchDec cs).1 ++ (matchDec cs).2 = cs := by
  match cs with
  | c :: d1 :: d2 :: rest =>
    by_cases hc : ((c = '.' || c = ',') && isDig d1) = true
    · obtain ⟨hcc, hd1⟩ : (c = '.' ∨ c = ',') ∧ isDig d1 = true := by
        simpa [Bool.and_eq_true, Bool.or_eq_true] using hc
      by_cases hd2 : isDig d2 = true
      · constructor
        · simpa [matchDec, hc, hd2] using DecShape.two c d1 d2 hcc hd1 hd2
        · simp [matchDec, hc, hd2]
      · constructor
        · simpa [matchDec, hc, hd2] using DecShape.one c d1 hcc hd1
        · simp [matchDec, hc, hd2]
    · constructor
      · simpa [matchDec, hc] using DecShape.nil
      · simp [matchDec, hc]
  | [c, d1] =>
    by_cases hc : ((c = '.' || c = ',') && isDig d1) = true
    · obtain ⟨hcc, hd1⟩ : (c = '.' ∨ c = ',') ∧ isDig d1 = true := by
        simpa [Bool.and_eq_true, Bool.or_eq_true] using hc
      constructor
      · simpa [matchDec, hc] using DecShape.one c d1 hcc hd1
      · simp [matchDec, hc]
    · constructor
      · simpa [matchDec, hc] using DecShape.nil
      · simp [matchDec, hc]
  | [] => exact ⟨DecShape.nil, rfl⟩
  | [c] => exact ⟨DecShape.nil, rfl⟩

theorem matchAlt1_eq (cs : List Char) :
    matchAlt1 cs =
      (if ((takeDigits cs).1.length = 0 || 3 < (takeDigits cs).1.length) then none
       else if (matchGroups (takeDigits cs).2).1 = [] then none
       else some ((takeDigits cs).1 ++ (matchGroups (takeDigits cs).2).1 ++
           (matchDec (matchGroups (takeDigits cs).2).2).1,
         (matchDec (matchGroups (takeDigits cs).2).2).2)) := rfl

theorem matchAlt2_eq (cs : List Char) :
    matchAlt2 cs =
      (if (takeDigits cs).1 = [] then none
       else some ((takeDigits cs).1 ++ (matchDec (takeDigits cs).2).1,
         (matchDec (takeDigits cs).2).2)) := rfl

theorem matchAlt1_spec {cs tok r : List Char} (h : matchAlt1 cs = some (tok, r)) :
    cs = tok ++ r ∧ ∃ ds g dc, tok = ds ++ g ++ dc ∧ ds ≠ [] ∧ ds.all isDig = true ∧
      GOK g ∧ g ≠ [] ∧ DecShape dc := by
  rw [matchAlt1_eq] at h
  split at h
  · exact absurd h (by simp)
  · split at h
    · exact absurd h (by simp)
    · rename_i h2
      have h3 := Option.some.inj h
      have htok := congrArg Prod.fst h3
      have hr := congrArg Prod.snd h3
      simp only at htok hr
      have hds := takeDigits_spec cs
      have hg := matchGroups_spec (takeDigits cs).2.length (takeDigits cs).2 le_rfl
      have hdc := matchDec_spec (matchGroups (takeDigits cs).2).2
      have hne : (takeDigits cs).1 ≠ [] := by
        rename_i h1
        intro he
        rw [he] at h1
        simp at h1
      constructor
      · rw [← htok, ← hr]
        simp only [List.append_assoc]
        rw [hdc.2, hg.2, hds.2]
      · exact ⟨(takeDigits cs).1, (matchGroups (takeDigits cs).2).1,
          (matchDec (matchGroups (takeDigits cs).2).2).1,
          htok.symm, hne, hds.1, hg.1, h2, hdc.1⟩

theorem matchAlt2_spec {cs tok r : List Char} (h : matchAlt2 cs = some (tok, r)) :
    cs = tok ++ r ∧ ∃ ds dc, tok = ds ++ dc ∧ ds ≠ [] ∧ ds.all isDig = true ∧ DecShape dc := by
  rw [matchAlt2_eq] at h
  split at h
  · exact absurd h (by simp)
  · rename_i h1
    have h3 := Option.some.inj h
    have htok := congrArg Prod.fst h3
    have hr := congrArg Prod.snd h3
    simp only at htok hr
    have hds := takeDigits_spec cs
    have hdc := matchDec_spec (takeDigits cs).2
    constructor
    · rw [← htok, ← hr, List.append_assoc, hdc.2, hds.2]
    · exact ⟨(takeDigits cs).1, (matchDec (takeDigits cs).2).1, htok.symm, h1, hds.1, hdc.1⟩


/-! ## Assembling the token invariant -/

theorem headDig_append {xs t : List Char} (h : headDig xs = true) : headDig (xs ++ t) = true := by
  cases xs with
  | nil => simp [headDig] at h
  | cons c cs => simpa [headDig] using h

theorem headDig_allDig {xs : List Char} (h : xs.all isDig = true) (hne : xs ≠ []) :
    headDig xs = true := by
  cases xs with
  | nil => exact absurd rfl hne
  | cons c cs =>
    simp only [List.all_cons, Bool.and_eq_true] at h
    simpa [headDig] using h.1

theorem lastDig_append {xs t : List Char} (h : lastDig t = true) : lastDig (xs ++ t) = true := by
  unfold lastDig at *
  rw [List.reverse_append]
  exact headDig_append h

theorem lastDig_allDig {xs : List Char} (h : xs.all isDig = true) (hne : xs ≠ []) :
    lastDig xs = true := by
  unfold lastDig
  cases hr : xs.reverse with
  | nil => exact absurd (List.reverse_eq_nil_iff.mp hr) hne
  | cons c t =>
    have hc : c ∈ xs := by
      have hm : c ∈ xs.reverse := by rw [hr]; exact List.mem_cons_self c t
      exact List.mem_reverse.mp hm
    have := List.all_eq_true.mp h c hc
    simpa [headDig] using this

theorem lastDig_GOK {g : List Char} (hg : GOK g) (hne : g ≠ []) : lastDig g = true := by
  induction hg with
  | nil => exact absurd rfl hne
  | cons s d1 d2 d3 rest hs h1 h2 h3 hr ih =>
    cases hrest : rest with
    | nil =>
      subst hrest
      simpa [lastDig, headDig] using h3
    | cons x xs =>
      have hr' : lastDig rest = true := ih (by simp [hrest])
      have hsplit : s :: d1 :: d2 :: d3 :: x :: xs = [s, d1, d2, d3] ++ rest := by
        rw [hrest]; rfl
      rw [hsplit]
      exact lastDig_append hr' 

theorem lastDig_DecShape {dc : List Char} (hdc : DecShape dc) (hne : dc ≠ []) :
    lastDig dc = true := by
  cases hdc with
  | nil => exact absurd rfl hne
  | one c d1 hc h1 => simpa [lastDig, headDig] using h1
  | two c d1 d2 hc h1 h2 => simpa [lastDig, headDig] using h2

theorem GOK_mem {g : List Char} (hg : GOK g) : ∀ c ∈ g, isDig c = true ∨ priceSep c = true := by
  induction hg with
  | nil => intro c hc; cases hc
  | cons s d1 d2 d3 rest hs h1 h2 h3 hr ih =>
    intro c hc
    rcases List.mem_cons.mp hc with rfl | hc
    · exact Or.inr hs
    rcases List.mem_cons.mp hc with rfl | hc
    · exact Or.inl h1
    rcases List.mem_cons.mp hc with rfl | hc
    · exact Or.inl h2
    rcases List.mem_cons.mp hc with rfl | hc
    · exact Or.inl h3
    exact ih c hc

theorem DecShape_mem {dc : List Char} (hdc : DecShape dc) :
    ∀ c ∈ dc, isDig c = true ∨ c = '.' ∨ c = ',' := by
  cases hdc with
  | nil => intro c hc; cases hc
  | one c d1 hc h1 =>
    intro x hx
    rcases List.mem_cons.mp hx with rfl | hx
    · exact Or.inr hc
    · simp only [List.mem_singleton] at hx; subst hx; exact Or.inl h1
  | two c d1 d2 hc h1 h2 =>
    intro x hx
    rcases List.mem_cons.mp hx with rfl | hx
    · exact Or.inr hc
    rcases List.mem_cons.mp hx with rfl | hx
    · exact Or.inl h1
    · simp only [List.mem_singleton] at hx; subst hx; exact Or.inl h2

theorem allAllowed_of_mem {xs : List Char}
    (h : ∀ c ∈ xs, isDig c = true ∨ priceSep c = true ∨ c = ',') :
    allAllowed xs = true := by
  simp only [allAllowed, List.all_eq_true]
  intro c hc
  rcases h c hc with hd | hd | hd <;> simp [hd]

theorem priceSep_ne_comma {c : Char} (h : priceSep c = true) : c ≠ ',' := by
  rcases priceSep_elim h with h' | rfl
  · rcases spaceSep_elim h' with rfl | rfl | rfl | rfl | rfl <;> decide
  · decide

theorem sepsOk_cons_eq (c : Char) (rest : List Char) :
    sepsOk (c :: rest) =
      ((if spaceSep c then
          match rest with
          | d1 :: d2 :: d3 :: _ => isDig d1 && isDig d2 && isDig d3
          | _ => false
        else true) && sepsOk rest) := rfl

theorem sepsOk_digits_append {xs t : List Char} (hxs : xs.all isDig = true)
    (ht : sepsOk t = true) : sepsOk (xs ++ t) = true := by
  induction xs with
  | nil => simpa using ht
  | cons c cs ih =>
    simp only [List.all_cons, Bool.and_eq_true] at hxs
    rw [List.cons_append, sepsOk_cons_eq, dig_not_spaceSep hxs.1]
    simpa using ih hxs.2

theorem sepsOk_DecShape {dc : List Char} (hdc : DecShape dc) : sepsOk dc = true := by
  cases hdc with
  | nil => rfl
  | one c d1 hc h1 =>
    rw [show ([c, d1] : List Char) = c :: [d1] from rfl, sepsOk_cons_eq,
      dotComma_not_spaceSep hc, sepsOk_cons_eq, dig_not_spaceSep h1]
    simp [sepsOk]
  | two c d1 d2 hc h1 h2 =>
    rw [show ([c, d1, d2] : List Char) = c :: d1 :: [d2] from rfl, sepsOk_cons_eq,
      dotComma_not_spaceSep hc, sepsOk_cons_eq, dig_not_spaceSep h1,
      sepsOk_cons_eq, dig_not_spaceSep h2]
    simp [sepsOk]

theorem sepsOk_GOK_append {g t : List Char} (hg : GOK g) (ht : sepsOk t = true) :
    sepsOk (g ++ t) = true := by
  induction hg with
  | nil => simpa using ht
  | cons s d1 d2 d3 rest hs h1 h2 h3 hr ih =>
    rw [List.cons_append, List.cons_append, List.cons_append, List.cons_append,
      sepsOk_cons_eq, sepsOk_cons_eq, dig_not_spaceSep h1,
      sepsOk_cons_eq, dig_not_spaceSep h2, sepsOk_cons_eq, dig_not_spaceSep h3]
    simp [h1, h2, h3, ih]

theorem sepsOk_append_right {xs ys : List Char} (h : sepsOk (xs ++ ys) = true) :
    sepsOk ys = true := by
  induction xs with
  | nil => simpa using h
  | cons c cs ih =>
    rw [List.cons_append, sepsOk_cons_eq, Bool.and_eq_true] at h
    exact ih h.2

theorem commaOk_cons_eq (c : Char) (rest : List Char) :
    commaOk (c :: rest) = (if c = ',' then rest.all isDig else commaOk rest) := rfl

theorem commaOk_noComma_append {xs t : List Char} (h : ∀ c ∈ xs, c ≠ ',') :
    commaOk (xs ++ t) = commaOk t := by
  induction xs with
  | nil => rfl
  | cons c cs ih =>
    rw [List.cons_append, commaOk_cons_eq, if_neg]
    · exact ih fun x hx => h x (List.mem_cons_of_mem c hx)
    · exact fun hc => h c (List.mem_cons_self c cs) (by simpa using hc)

theorem commaOk_DecShape {dc : List Char} (hdc : DecShape dc) : commaOk dc = true := by
  cases hdc with
  | nil => rfl
  | one c d1 hc h1 =>
    rw [show ([c, d1] : List Char) = c :: [d1] from rfl, commaOk_cons_eq]
    by_cases hcc : c = ','
    · simp [hcc, h1]
    · simp [hcc, commaOk_cons_eq, dig_ne_comma h1, commaOk]
  | two c d1 d2 hc h1 h2 =>
    rw [show ([c, d1, d2] : List Char) = c :: [d1, d2] from rfl, commaOk_cons_eq]
    by_cases hcc : c = ','
    · simp [hcc, h1, h2]
    · simp [hcc, commaOk_cons_eq, dig_ne_comma h1, dig_ne_comma h2, commaOk]

theorem goodTok_parts {ds g dc : List Char} (hds : ds.all isDig = true) (hne : ds ≠ [])
    (hg : GOK g) (hdc : DecShape dc) : goodTok (ds ++ g ++ dc) = true := by
  have hhead : headDig (ds ++ g ++ dc) = true := by
    rw [List.append_assoc]
    exact headDig_append (headDig_allDig hds hne)
  have hlast : lastDig (ds ++ g ++ dc) = true := by
    by_cases hdcne : dc = []
    · subst hdcne
      rw [List.append_nil]
      by_cases hgne : g = []
      · subst hgne; rw [List.append_nil]; exact lastDig_allDig hds hne
      · exact lastDig_append (lastDig_GOK hg hgne)
    · exact lastDig_append (lastDig_DecShape hdc hdcne)
  have hall : allAllowed (ds ++ g ++ dc) = true := by
    apply allAllowed_of_mem
    intro c hc
    rcases List.mem_append.mp hc with hc | hc
    · rcases List.mem_append.mp hc with hc | hc
      · exact Or.inl (List.all_eq_true.mp hds c hc)
      · rcases GOK_mem hg c hc with hd | hd
        · exact Or.inl hd
        · exact Or.inr (Or.inl hd)
    · rcases DecShape_mem hdc c hc with hd | hd | hd
      · exact Or.inl hd
      · subst hd; exact Or.inr (Or.inl (by decide))
      · exact Or.inr (Or.inr hd)
  have hseps : sepsOk (ds ++ g ++ dc) = true := by
    rw [List.append_assoc]
    exact sepsOk_digits_append hds (sepsOk_GOK_append hg (sepsOk_DecShape hdc))
  have hcomma : commaOk (ds ++ g ++ dc) = true := by
    rw [@commaOk_noComma_append (ds ++ g) dc]
    · exact commaOk_DecShape hdc
    · intro c hc
      rcases List.mem_append.mp hc with hc | hc
      · exact dig_ne_comma (List.all_eq_true.mp hds c hc)
      · rcases GOK_mem hg c hc with hd | hd
        · exact dig_ne_comma hd
        · exact priceSep_ne_comma hd
  simp only [goodTok, Bool.and_eq_true]
  exact ⟨⟨⟨⟨hhead, hlast⟩, hall⟩, hseps⟩, hcomma⟩

theorem tok_good_alt1 {cs tok r : List Char} (h : matchAlt1 cs = some (tok, r)) :
    goodTok tok = true := by
  obtain ⟨-, ds, g, dc, rfl, hne, hds, hg, -, hdc⟩ := matchAlt1_spec h
  exact goodTok_parts hds hne hg hdc

theorem tok_good_alt2 {cs tok r : List Char} (h : matchAlt2 cs = some (tok, r)) :
    goodTok tok = true := by
  obtain ⟨-, ds, dc, rfl, hne, hds, hdc⟩ := matchAlt2_spec h
  have : ds ++ dc = ds ++ [] ++ dc := by simp
  rw [this]
  exact goodTok_parts hds hne GOK.nil hdc

theorem findallAux_eq_cons (n : Nat) (c : Char) (rest : List Char) :
    findallAux (n + 1) (c :: rest) =
      (match matchAlt1 (c :: rest) with
       | some (tok, r) => tok :: findallAux n r
       | none =>
         match matchAlt2 (c :: rest) with
         | some (tok, r) => tok :: findallAux n r
         | none => findallAux n rest) := rfl

theorem findallAux_good : ∀ n cs tok, tok ∈ findallAux n cs → goodTok tok = true := by
  intro n
  induction n with
  | zero =>
    intro cs tok h
    rw [show findallAux 0 cs = [] from rfl] at h
    cases h
  | succ n ih =>
    intro cs tok h
    cases cs with
    | nil =>
      rw [show findallAux (n + 1) [] = [] from rfl] at h
      cases h
    | cons c rest =>
      rw [findallAux_eq_cons] at h
      cases h1 : matchAlt1 (c :: rest) with
      | some pr =>
        obtain ⟨tok1, r1⟩ := pr
        rw [h1] at h
        rcases List.mem_cons.mp h with rfl | h
        · exact tok_good_alt1 h1
        · exact ih r1 tok h
      | none =>
        rw [h1] at h
        cases h2 : matchAlt2 (c :: rest) with
        | some pr =>
          obtain ⟨tok2, r2⟩ := pr
          rw [h2] at h
          rcases List.mem_cons.mp h with rfl | h
          · exact tok_good_alt2 h2
          · exact ih r2 tok h
        | none =>
          rw [h2] at h
          exact ih rest tok h

/-- Every token the tokenizer produces satisfies the token invariant. -/
theorem token_good {text t : String} (h : t ∈ find_price_candidates text) :
    goodTok t.data = true := by
  unfold find_price_candidates at h
  split at h
  · simp at h
  · obtain ⟨l, hl, hlt⟩ := List.mem_map.mp h
    have := findallAux_good _ _ _ hl
    rw [← hlt]
    simpa using this


/-! ## The `Decimal` constructor on the strings the Normalizer builds -/

theorem takeDigits_all {xs : List Char} (h : xs.all isDig = true) : takeDigits xs = (xs, []) := by
  induction xs with
  | nil => rfl
  | cons c cs ih =>
    simp only [List.all_cons, Bool.and_eq_true] at h
    simp [takeDigits, h.1, ih h.2]

theorem takeDigits_stop {xs : List Char} (y : Char) (r : List Char) (h : xs.all isDig = true)
    (hy : isDig y = false) : takeDigits (xs ++ y :: r) = (xs, y :: r) := by
  induction xs with
  | nil => simp [takeDigits, hy]
  | cons c cs ih =>
    simp only [List.all_cons, Bool.and_eq_true] at h
    simp [takeDigits, h.1, ih h.2]

theorem splitSign_dig {c : Char} {rest : List Char} (h : isDig c = true) :
    splitSign (c :: rest) = (false, c :: rest) := by
  rcases isDig_elim h with rfl | rfl | rfl | rfl | rfl | rfl | rfl | rfl | rfl | rfl <;> rfl

theorem isInfStr_cons_ne {x : Char} {tail : List Char} (hx : x ≠ 'i') :
    isInfStr (x :: tail) = false := by
  simp [isInfStr, hx]

theorem isNanStr_cons_ne {x : Char} {tail : List Char} (hn : x ≠ 'n') (hs : x ≠ 's') :
    isNanStr (x :: tail) = false := by
  unfold isNanStr
  split
  · rename_i heq; injection heq with h1 _; exact absurd h1 hn
  · rename_i heq; injection heq with h1 _; exact absurd h1 hs
  · rfl

theorem parseFinite_digits {ds : List Char} (h : ds.all isDig = true) (hne : ds ≠ []) :
    parseFinite ds = some ((digitsToNat ds : ℚ)) := by
  unfold parseFinite
  rw [takeDigits_all h]
  simp [hne, parseExpPart]

theorem parseFinite_dotted {ds es : List Char} (hds : ds.all isDig = true) (hne : ds ≠ [])
    (hes : es.all isDig = true) :
    parseFinite (ds ++ '.' :: es) =
      some ((digitsToNat ds : ℚ) + (digitsToNat es : ℚ) / 10 ^ es.length) := by
  unfold parseFinite
  simp only [takeDigits_stop '.' es hds (by decide), takeDigits_all hes]
  simp [hne, parseExpPart]

theorem pyDecimal_digits {ds : List Char} (h : ds.all isDig = true) (hne : ds ≠ []) :
    pyDecimalOfChars ds = some (.num ((digitsToNat ds : ℚ))) := by
  obtain ⟨c, rest, rfl⟩ : ∃ c rest, ds = c :: rest := by
    cases ds with
    | nil => exact absurd rfl hne
    | cons c rest => exact ⟨c, rest, rfl⟩
  have hc : isDig c = true := by
    simp only [List.all_cons, Bool.and_eq_true] at h; exact h.1
  have hlow : lowerL (c :: rest) = c :: lowerL rest := by
    simp [lowerL, dig_lower hc]
  simp only [pyDecimalOfChars, splitSign_dig hc, hlow,
    isInfStr_cons_ne (dig_ne_i hc), isNanStr_cons_ne (dig_ne_n hc) (dig_ne_s hc),
    Bool.false_eq_true, if_false, parseFinite_digits h hne]

theorem pyDecimal_dotted {ds es : List Char} (hds : ds.all isDig = true) (hne : ds ≠ [])
    (hes : es.all isDig = true) :
    pyDecimalOfChars (ds ++ '.' :: es) =
      some (.num ((digitsToNat ds : ℚ) + (digitsToNat es : ℚ) / 10 ^ es.length)) := by
  obtain ⟨c, rest, rfl⟩ : ∃ c rest, ds = c :: rest := by
    cases ds with
    | nil => exact absurd rfl hne
    | cons c rest => exact ⟨c, rest, rfl⟩
  have hc : isDig c = true := by
    simp only [List.all_cons, Bool.and_eq_true] at hds; exact hds.1
  have happ : (c :: rest) ++ '.' :: es = c :: (rest ++ '.' :: es) := rfl
  rw [happ]
  have hlow : lowerL (c :: (rest ++ '.' :: es)) = c :: lowerL (rest ++ '.' :: es) := by
    simp [lowerL, dig_lower hc]
  have hpf := parseFinite_dotted hds hne hes
  rw [happ] at hpf
  simp only [pyDecimalOfChars, splitSign_dig hc, hlow,
    isInfStr_cons_ne (dig_ne_i hc), isNanStr_cons_ne (dig_ne_n hc) (dig_ne_s hc),
    Bool.false_eq_true, if_false, hpf]


/-! ## The Normalizer's preprocessing is inert on tokens -/

theorem nsp_cases (c : Char) :
    ((c = nbsp ∨ c = nnbsp ∨ c = thinsp) ∧ nspChar c = ' ') ∨ nspChar c = c := by
  unfold nspChar
  split
  · rename_i h; exact Or.inl ⟨h, rfl⟩
  · exact Or.inr rfl

theorem nsp_isDig (c : Char) : isDig (nspChar c) = isDig c := by
  rcases nsp_cases c with ⟨h3, he⟩ | he
  · rcases h3 with rfl | rfl | rfl <;> rw [he] <;> decide
  · rw [he]

theorem nsp_priceSep (c : Char) : priceSep (nspChar c) = priceSep c := by
  rcases nsp_cases c with ⟨h3, he⟩ | he
  · rcases h3 with rfl | rfl | rfl <;> rw [he] <;> decide
  · rw [he]

theorem nsp_spaceSep (c : Char) : spaceSep (nspChar c) = spaceSep c := by
  rcases nsp_cases c with ⟨h3, he⟩ | he
  · rcases h3 with rfl | rfl | rfl <;> rw [he] <;> decide
  · rw [he]

theorem nsp_comma (c : Char) : (nspChar c = ',') ↔ (c = ',') := by
  rcases nsp_cases c with ⟨h3, he⟩ | he
  · rcases h3 with rfl | rfl | rfl <;> rw [he] <;> simp <;> decide
  · rw [he]

theorem nsp_dotComma (c : Char) :
    (nspChar c = '.' ∨ nspChar c = ',') ↔ (c = '.' ∨ c = ',') := by
  rcases nsp_cases c with ⟨h3, he⟩ | he
  · rcases h3 with rfl | rfl | rfl <;> rw [he] <;> simp <;> decide
  · rw [he]

theorem nsp_dotComma_eq {c : Char} (h : c = '.' ∨ c = ',') : nspChar c = c := by
  rcases h with rfl | rfl <;> decide

theorem headDig_norm (cs : List Char) : headDig (normSpacesL cs) = headDig cs := by
  cases cs with
  | nil => rfl
  | cons c rest => simp [headDig, normSpacesL, nsp_isDig]

theorem lastDig_norm (cs : List Char) : lastDig (normSpacesL cs) = lastDig cs := by
  unfold lastDig normSpacesL
  rw [← List.map_reverse]
  exact headDig_norm cs.reverse

theorem nsp_fix_of_not_priceSep {c : Char} (hps : priceSep c = false) : nspChar c = c := by
  rcases nsp_cases c with ⟨h3, -⟩ | he
  · exfalso
    rcases h3 with rfl | rfl | rfl <;> exact absurd hps (by decide)
  · exact he

theorem filter_nsp_priceSep (xs : List Char) :
    (normSpacesL xs).filter (fun c => !priceSep c) = xs.filter (fun c => !priceSep c) := by
  induction xs with
  | nil => rfl
  | cons c rest ih =>
    show ((nspChar c :: normSpacesL rest).filter fun c => !priceSep c) = _
    cases h : priceSep c with
    | true => simp [List.filter_cons, nsp_priceSep, h, ih]
    | false => simp [List.filter_cons, nsp_priceSep, h, nsp_fix_of_not_priceSep h, ih]

theorem filter_nsp_isDig (xs : List Char) :
    (normSpacesL xs).filter isDig = xs.filter isDig := by
  induction xs with
  | nil => rfl
  | cons c rest ih =>
    show ((nspChar c :: normSpacesL rest).filter isDig) = _
    cases h : isDig c with
    | true => simp [List.filter_cons, dig_nsp h, h, ih]
    | false => simp [List.filter_cons, nsp_isDig, h, ih]

theorem filter_nsp_int (xs : List Char) :
    (normSpacesL xs).filter (fun c => !(priceSep c || c = ',')) =
      xs.filter (fun c => !(priceSep c || c = ',')) := by
  induction xs with
  | nil => rfl
  | cons c rest ih =>
    show ((nspChar c :: normSpacesL rest).filter _) = _
    have hdc : (decide (nspChar c = ',') : Bool) = decide (c = ',') := by
      by_cases hc : c = ','
      · subst hc; decide
      · have h2 : ¬(nspChar c = ',') := fun hh => hc ((nsp_comma c).mp hh)
        simp [hc, h2]
    cases h : (priceSep c || decide (c = ',')) with
    | true =>
      rw [List.filter_cons, List.filter_cons]
      simp only [nsp_priceSep, hdc, h, Bool.not_true, Bool.false_eq_true, if_false, ih]
    | false =>
      have hps : priceSep c = false := (Bool.or_eq_false_iff.mp h).1
      rw [List.filter_cons, List.filter_cons]
      simp only [nsp_priceSep, hdc, h, Bool.not_false, if_true, ih,
        nsp_fix_of_not_priceSep hps]

theorem map_nsp_digits {xs : List Char} (h : xs.all isDig = true) : normSpacesL xs = xs := by
  induction xs with
  | nil => rfl
  | cons c rest ih =>
    simp only [List.all_cons, Bool.and_eq_true] at h
    show nspChar c :: normSpacesL rest = c :: rest
    rw [dig_nsp h.1, ih h.2]

theorem sepsOk_norm : ∀ cs, sepsOk cs = true → sepsOk (normSpacesL cs) = true := by
  intro cs
  induction cs with
  | nil => intro h; exact h
  | cons c rest ih =>
    intro h
    rw [sepsOk_cons_eq, Bool.and_eq_true] at h
    show sepsOk (nspChar c :: normSpacesL rest) = true
    rw [sepsOk_cons_eq, Bool.and_eq_true]
    refine ⟨?_, ih h.2⟩
    rw [nsp_spaceSep]
    rcases h with ⟨h1, -⟩
    by_cases hss : spaceSep c = true
    · rw [hss] at h1 ⊢
      simp only [if_true] at h1 ⊢
      match rest with
      | d1 :: d2 :: d3 :: t =>
        show (isDig (nspChar d1) && isDig (nspChar d2) && isDig (nspChar d3)) = true
        simpa [nsp_isDig] using h1
      | [] => exact absurd h1 (by simp)
      | [d1] => exact absurd h1 (by simp)
      | [d1, d2] => exact absurd h1 (by simp)
    · have : spaceSep c = false := by simpa using hss
      rw [this]
      simp

theorem commaOk_norm : ∀ cs, commaOk cs = true → commaOk (normSpacesL cs) = true := by
  intro cs
  induction cs with
  | nil => intro h; exact h
  | cons c rest ih =>
    intro h
    rw [commaOk_cons_eq] at h
    show commaOk (nspChar c :: normSpacesL rest) = true
    rw [commaOk_cons_eq]
    by_cases hc : c = ','
    · rw [if_pos ((nsp_comma c).mpr hc), ]
      rw [if_pos hc] at h
      simp only [normSpacesL, List.all_map]
      refine List.all_eq_true.mpr ?_
      intro x hx
      have := List.all_eq_true.mp h x hx
      simpa [Function.comp, nsp_isDig] using this
    · rw [if_neg hc] at h
      rw [if_neg (fun hh => hc ((nsp_comma c).mp hh))]
      exact ih h

theorem allowed_ne_dash {c : Char} (h : (isDig c || priceSep c || c = ',') = true) :
    c ≠ '-' := by
  simp only [Bool.or_eq_true, decide_eq_true_eq] at h
  rcases h with (hd | hd) | hd
  · exact dig_ne_dash hd
  · rcases priceSep_elim hd with h' | rfl
    · rcases spaceSep_elim h' with rfl | rfl | rfl | rfl | rfl <;> decide
    · decide
  · subst hd; decide

theorem pyStrip_eq_self {cs : List Char} (h1 : headDig cs = true) (h2 : lastDig cs = true) :
    pyStrip cs = cs := by
  unfold pyStrip dropTrailing
  have hdw : cs.dropWhile pyIsSpace = cs := by
    cases cs with
    | nil => rfl
    | cons c rest =>
      have : isDig c = true := by simpa [headDig] using h1
      simp [List.dropWhile_cons, dig_not_space this]
  rw [hdw]
  have hdw2 : cs.reverse.dropWhile pyIsSpace = cs.reverse := by
    unfold lastDig at h2
    cases hr : cs.reverse with
    | nil => rfl
    | cons c rest =>
      rw [hr] at h2
      have : isDig c = true := by simpa [headDig] using h2
      simp [List.dropWhile_cons, dig_not_space this]
  rw [hdw2, List.reverse_reverse]

theorem wsDashTail_none {cs : List Char} (h : ∀ c ∈ cs, c ≠ '-') : wsDashTail cs = none := by
  unfold wsDashTail
  split
  · rename_i c t heq
    exfalso
    have hmem : '-' ∈ cs.dropWhile pyIsSpace := by
      rw [heq]; exact List.mem_cons_self _ _
    exact h '-' ((@List.dropWhile_sublist _ cs pyIsSpace).subset hmem) rfl
  · rfl

theorem commaDashAux_eq_self : ∀ n cs, (∀ c ∈ cs, c ≠ '-') → commaDashAux n cs = cs := by
  intro n
  induction n with
  | zero => intro cs h; rfl
  | succ n ih =>
    intro cs h
    cases cs with
    | nil => rfl
    | cons c rest =>
      have hrest : ∀ x ∈ rest, x ≠ '-' := fun x hx => h x (List.mem_cons_of_mem c hx)
      by_cases hc : c = ','
      · simp only [commaDashAux, hc, if_true, wsDashTail_none hrest, ih rest hrest]
      · simp only [commaDashAux, hc, if_false, ih rest hrest]

theorem commaDashSub_eq_self {cs : List Char} (h : ∀ c ∈ cs, c ≠ '-') :
    commaDashSub cs = cs := commaDashAux_eq_self cs.length cs h


/-! ## The rightmost-separator split -/

theorem splitRightmostSep_none : ∀ cs, splitRightmostSep cs = none →
    ∀ c ∈ cs, ¬(c = '.' ∨ c = ',') := by
  intro cs
  induction cs with
  | nil => intro h c hc; cases hc
  | cons c rest ih =>
    intro h x hx
    rw [splitRightmostSep] at h
    cases hr : splitRightmostSep rest with
    | some tr => rw [hr] at h; cases h
    | none =>
      rw [hr] at h
      by_cases hc : c = '.' ∨ c = ','
      · rw [if_pos hc] at h; cases h
      · rcases List.mem_cons.mp hx with rfl | hx
        · exact hc
        · exact ih hr x hx


theorem splitRightmostSep_spec : ∀ cs p s q, splitRightmostSep cs = some (p, s, q) →
    cs = p ++ s :: q ∧ (s = '.' ∨ s = ',') ∧ ∀ c ∈ q, ¬(c = '.' ∨ c = ',') := by
  intro cs
  induction cs with
  | nil => intro p s q h; cases h
  | cons c rest ih =>
    intro p s q h
    rw [splitRightmostSep] at h
    cases hr : splitRightmostSep rest with
    | some tr =>
      obtain ⟨p1, s1, q1⟩ := tr
      rw [hr] at h
      obtain ⟨hp, hs, hq⟩ : c :: p1 = p ∧ s1 = s ∧ q1 = q := by
        have h3 := Option.some.inj h
        refine ⟨congrArg Prod.fst h3, ?_, ?_⟩
        · exact congrArg (fun x => x.2.1) h3
        · exact congrArg (fun x => x.2.2) h3
      obtain ⟨he, hsc, hnc⟩ := ih p1 s1 q1 hr
      subst hp hs hq
      exact ⟨by rw [List.cons_append, he], hsc, hnc⟩
    | none =>
      rw [hr] at h
      by_cases hc : c = '.' ∨ c = ','
      · rw [if_pos hc] at h
        obtain ⟨hp, hs, hq⟩ : ([] : List Char) = p ∧ c = s ∧ rest = q := by
          have h3 := Option.some.inj h
          refine ⟨congrArg Prod.fst h3, ?_, ?_⟩
          · exact congrArg (fun x => x.2.1) h3
          · exact congrArg (fun x => x.2.2) h3
        subst hp hs hq
        refine ⟨rfl, hc, ?_⟩
        intro x hx hdc
        have hnone := splitRightmostSep_none rest hr x hx
        exact hnone hdc
      · rw [if_neg hc] at h
        cases h


theorem split_nsp_none {cs : List Char} (h : splitRightmostSep cs = none) :
    splitRightmostSep (normSpacesL cs) = none := by
  induction cs with
  | nil => rfl
  | cons c rest ih =>
    rw [splitRightmostSep] at h
    cases hr : splitRightmostSep rest with
    | some tr => rw [hr] at h; cases h
    | none =>
      rw [hr] at h
      by_cases hc : c = '.' ∨ c = ','
      · rw [if_pos hc] at h; cases h
      · show splitRightmostSep (nspChar c :: normSpacesL rest) = none
        rw [splitRightmostSep, ih hr, if_neg (fun hh => hc ((nsp_dotComma c).mp hh))]

theorem split_nsp_some : ∀ {cs p q : List Char} {s : Char},
    splitRightmostSep cs = some (p, s, q) →
    splitRightmostSep (normSpacesL cs) = some (normSpacesL p, s, normSpacesL q) := by
  intro cs
  induction cs with
  | nil => intro p q s h; cases h
  | cons c rest ih =>
    intro p q s h
    rw [splitRightmostSep] at h
    cases hr : splitRightmostSep rest with
    | some tr =>
      obtain ⟨p1, s1, q1⟩ := tr
      rw [hr] at h
      obtain ⟨hp, hs, hq⟩ : c :: p1 = p ∧ s1 = s ∧ q1 = q := by
        have h3 := Option.some.inj h
        exact ⟨congrArg Prod.fst h3, congrArg (fun x => x.2.1) h3,
          congrArg (fun x => x.2.2) h3⟩
      subst hp hs hq
      show splitRightmostSep (nspChar c :: normSpacesL rest) = _
      rw [splitRightmostSep, ih hr]
      rfl
    | none =>
      rw [hr] at h
      by_cases hc : c = '.' ∨ c = ','
      · rw [if_pos hc] at h
        obtain ⟨hp, hs, hq⟩ : ([] : List Char) = p ∧ c = s ∧ rest = q := by
          have h3 := Option.some.inj h
          exact ⟨congrArg Prod.fst h3, congrArg (fun x => x.2.1) h3,
            congrArg (fun x => x.2.2) h3⟩
        subst hp hq
        show splitRightmostSep (nspChar c :: normSpacesL rest) = _
        rw [splitRightmostSep, split_nsp_none hr,
          if_pos ((nsp_dotComma c).mpr hc), nsp_dotComma_eq hc, hs]
        rfl
      · rw [if_neg hc] at h; cases h

theorem commaOk_after : ∀ (a b : List Char), commaOk (a ++ ',' :: b) = true →
    b.all isDig = true := by
  intro a
  induction a with
  | nil => intro b h; rwa [List.nil_append, commaOk_cons_eq, if_pos rfl] at h
  | cons x a2 ih =>
    intro b h
    rw [List.cons_append, commaOk_cons_eq] at h
    by_cases hx : x = ','
    · rw [if_pos hx] at h
      have hmem : isDig ',' = true := List.all_eq_true.mp h ',' (by simp)
      exact absurd hmem (by decide)
    · rw [if_neg hx] at h; exact ih b h

theorem sepsOk_short : ∀ xs, sepsOk xs = true → xs.length ≤ 3 →
    ∀ c ∈ xs, spaceSep c = false := by
  intro xs
  induction xs with
  | nil => intro _ _ c hc; cases hc
  | cons x rest ih =>
    intro h hlen c hc
    rw [sepsOk_cons_eq, Bool.and_eq_true] at h
    rcases List.mem_cons.mp hc with rfl | hc
    · cases hss : spaceSep c with
      | false => rfl
      | true =>
        exfalso
        have h1 := h.1
        rw [hss, if_pos rfl] at h1
        match rest, hlen with
        | [], _ => exact absurd h1 (by simp)
        | [d1], _ => exact absurd h1 (by simp)
        | [d1, d2], _ => exact absurd h1 (by simp)
        | d1 :: d2 :: d3 :: t, hlen => simp at hlen
    · refine ih h.2 ?_ c hc
      simp only [List.length_cons] at hlen
      omega

theorem filter_int_eq_dig {xs : List Char} (hall : allAllowed xs = true) :
    xs.filter (fun c => !(priceSep c || c = ',')) = xs.filter isDig := by
  induction xs with
  | nil => rfl
  | cons c rest ih =>
    have hall2 : allAllowed rest = true := by
      simp only [allAllowed, List.all_cons, Bool.and_eq_true] at hall
      exact hall.2
    have hc : (isDig c || priceSep c || decide (c = ',')) = true := by
      simp only [allAllowed, List.all_cons, Bool.and_eq_true] at hall
      exact hall.1
    have hrest := ih hall2
    simp only [Bool.not_or] at hrest
    rw [List.filter_cons, List.filter_cons]
    rcases Bool.or_eq_true_iff.mp hc with hd | hd
    · rcases Bool.or_eq_true_iff.mp hd with hd | hd
      · have h1 : priceSep c = false := dig_not_priceSep hd
        have h2 : (decide (c = ',') : Bool) = false := by
          simpa using dig_ne_comma hd
        simp [h1, h2, hd, hrest]
      · have h2 : isDig c = false := priceSep_not_dig hd
        simp [hd, h2, hrest]
    · have hcc : c = ',' := by simpa using hd
      subst hcc
      simp [hrest, show priceSep ',' = false from by decide,
        show isDig ',' = false from by decide]

theorem intBranch_good {tok : List Char} (hall : allAllowed tok = true)
    (hhead : headDig tok = true) :
    intBranch (normSpacesL tok) = .ok (some (.num ((digitsToNat (tok.filter isDig) : ℚ)))) := by
  have hne : tok.filter isDig ≠ [] := by
    cases tok with
    | nil => simp [headDig] at hhead
    | cons c rest =>
      have hc : isDig c = true := by simpa [headDig] using hhead
      simp [List.filter_cons, hc]
  have halldig : (tok.filter isDig).all isDig = true :=
    List.all_eq_true.mpr fun c hc => (List.mem_filter.mp hc).2
  simp only [intBranch, filter_nsp_int, filter_int_eq_dig hall, if_neg hne,
    pyDecimal_digits halldig hne]


theorem goodTok_elim {tok : List Char} (h : goodTok tok = true) :
    headDig tok = true ∧ lastDig tok = true ∧ allAllowed tok = true ∧
    sepsOk tok = true ∧ commaOk tok = true := by
  simp only [goodTok, Bool.and_eq_true] at h
  tauto

/-- On a token, the stripping and the comma-dash substitution are inert, so
the Normalizer works on the space-normalized token. -/
theorem normalize_pre {tok : List Char} (h : goodTok tok = true) :
    normalize_candidateL tok =
      (match splitRightmostSep (normSpacesL tok) with
       | some (pre, _, suf) =>
         if suf.length = 1 ∨ suf.length = 2 then decBranch pre suf
         else intBranch (normSpacesL tok)
       | none => intBranch (normSpacesL tok)) := by
  obtain ⟨hhead, hlast, hall, -, -⟩ := goodTok_elim h
  have hne : tok ≠ [] := by
    cases tok with
    | nil => simp [headDig] at hhead
    | cons c rest => simp
  have hdash : ∀ c ∈ normSpacesL tok, c ≠ '-' := by
    intro c hc
    obtain ⟨c0, hc0, rfl⟩ := List.mem_map.mp hc
    rcases nsp_cases c0 with ⟨-, he⟩ | he
    · rw [he]; decide
    · rw [he]
      refine allowed_ne_dash ?_
      have := List.all_eq_true.mp hall c0 hc0
      simpa using this
  have hpre : commaDashSub (pyStrip (normSpacesL tok)) = normSpacesL tok := by
    rw [pyStrip_eq_self (by rw [headDig_norm]; exact hhead)
      (by rw [lastDig_norm]; exact hlast)]
    exact commaDashSub_eq_self hdash
  unfold normalize_candidateL
  rw [if_neg hne, hpre]

theorem normalize_good_none {tok : List Char} (h : goodTok tok = true)
    (hs : splitRightmostSep tok = none) :
    normalize_candidateL tok = .ok (some (.num ((digitsToNat (tok.filter isDig) : ℚ)))) := by
  obtain ⟨hhead, -, hall, -, -⟩ := goodTok_elim h
  rw [normalize_pre h, split_nsp_none hs]
  exact intBranch_good hall hhead

theorem normalize_good_long {tok pre suf : List Char} {s : Char} (h : goodTok tok = true)
    (hs : splitRightmostSep tok = some (pre, s, suf))
    (hlen : ¬(suf.length = 1 ∨ suf.length = 2)) :
    normalize_candidateL tok = .ok (some (.num ((digitsToNat (tok.filter isDig) : ℚ)))) := by
  obtain ⟨hhead, -, hall, -, -⟩ := goodTok_elim h
  have hnc2 : normalize_candidateL tok =
      (if (normSpacesL suf).length = 1 ∨ (normSpacesL suf).length = 2
       then decBranch (normSpacesL pre) (normSpacesL suf)
       else intBranch (normSpacesL tok)) := by
    rw [normalize_pre h, split_nsp_some hs]
  have hlen2 : ¬((normSpacesL suf).length = 1 ∨ (normSpacesL suf).length = 2) := by
    simpa [normSpacesL] using hlen
  rw [hnc2, if_neg hlen2]
  exact intBranch_good hall hhead

theorem normalize_good_dec {tok pre suf : List Char} {s : Char} (h : goodTok tok = true)
    (hs : splitRightmostSep tok = some (pre, s, suf))
    (hlen : suf.length = 1 ∨ suf.length = 2) :
    suf.all isDig = true ∧
    normalize_candidateL tok =
      .ok (some (.num ((digitsToNat (pre.filter fun c => !priceSep c) : ℚ) +
        (digitsToNat suf : ℚ) / 10 ^ suf.length))) := by
  obtain ⟨hhead, -, hall, hseps, hcomma⟩ := goodTok_elim h
  obtain ⟨he, hsc, hnq⟩ := splitRightmostSep_spec tok pre s suf hs
  have hsufseps : sepsOk suf = true := by
    have h1 : sepsOk (pre ++ s :: suf) = true := by rwa [he] at hseps
    have h2 := sepsOk_append_right h1
    rw [sepsOk_cons_eq, Bool.and_eq_true] at h2
    exact h2.2
  have hsufdig : suf.all isDig = true := by
    refine List.all_eq_true.mpr ?_
    intro c hc
    have hmemtok : c ∈ tok := by
      rw [he]
      exact List.mem_append_right pre (List.mem_cons_of_mem s hc)
    have hallow : (isDig c || priceSep c || decide (c = ',')) = true := by
      have := List.all_eq_true.mp hall c hmemtok
      simpa using this
    have hnodc := hnq c hc
    have hlen3 : suf.length ≤ 3 := by rcases hlen with h1 | h1 <;> omega
    have hnss : spaceSep c = false := sepsOk_short suf hsufseps hlen3 c hc
    rcases Bool.or_eq_true_iff.mp hallow with hd | hd
    · rcases Bool.or_eq_true_iff.mp hd with hd | hd
      · exact hd
      · rcases priceSep_elim hd with hss | hdot
        · rw [hnss] at hss; cases hss
        · exact absurd (Or.inl hdot) hnodc
    · exact absurd (Or.inr (by simpa using hd)) hnodc
  have hintpart : (pre.filter fun c => !priceSep c).all isDig = true := by
    refine List.all_eq_true.mpr ?_
    intro c hc
    obtain ⟨hcp, hcn⟩ := List.mem_filter.mp hc
    have hmemtok : c ∈ tok := by rw [he]; exact List.mem_append_left _ hcp
    have hallow : (isDig c || priceSep c || decide (c = ',')) = true := by
      have := List.all_eq_true.mp hall c hmemtok
      simpa using this
    rcases Bool.or_eq_true_iff.mp hallow with hd | hd
    · rcases Bool.or_eq_true_iff.mp hd with hd | hd
      · exact hd
      · rw [hd] at hcn; exact absurd hcn (by simp)
    · exfalso
      have hcc : c = ',' := by simpa using hd
      subst hcc
      obtain ⟨a, b, hab⟩ := List.append_of_mem hcp
      have htok2 : tok = a ++ ',' :: (b ++ s :: suf) := by
        rw [he, hab]
        simp
      have hdig := commaOk_after a (b ++ s :: suf) (by rwa [htok2] at hcomma)
      have hsd : isDig s = true :=
        List.all_eq_true.mp hdig s (List.mem_append_right b (List.mem_cons_self s suf))
      rw [dotComma_not_dig hsc] at hsd
      cases hsd
  have hprene : pre ≠ [] := by
    intro h0
    rw [h0] at he
    rw [he] at hhead
    have hsd : isDig s = true := by simpa [headDig] using hhead
    rw [dotComma_not_dig hsc] at hsd
    cases hsd
  have hintne : (pre.filter fun c => !priceSep c) ≠ [] := by
    obtain ⟨p0, pre2, hpre0⟩ := List.exists_cons_of_ne_nil hprene
    have hp0 : isDig p0 = true := by
      rw [he, hpre0] at hhead
      simpa [headDig] using hhead
    have hp0m : p0 ∈ pre.filter fun c => !priceSep c := by
      rw [hpre0]
      refine List.mem_filter.mpr ⟨List.mem_cons_self _ _, ?_⟩
      simp [dig_not_priceSep hp0]
    exact List.ne_nil_of_mem hp0m
  have hnc2 : normalize_candidateL tok =
      (if (normSpacesL suf).length = 1 ∨ (normSpacesL suf).length = 2
       then decBranch (normSpacesL pre) (normSpacesL suf)
       else intBranch (normSpacesL tok)) := by
    rw [normalize_pre h, split_nsp_some hs]
  have hlen2 : (normSpacesL suf).length = 1 ∨ (normSpacesL suf).length = 2 := by
    simpa [normSpacesL] using hlen
  have hsuffix : normSpacesL suf = suf := map_nsp_digits hsufdig
  refine ⟨hsufdig, ?_⟩
  rw [hnc2, if_pos hlen2, hsuffix]
  simp only [decBranch]
  rw [filter_nsp_priceSep,
    List.filter_eq_self.mpr (fun c hc => List.all_eq_true.mp hsufdig c hc),
    if_neg hintne, pyDecimal_dotted hintpart hintne hsufdig]

/-- On a token of the tokenizer, the Normalizer always returns a finite
value: it never returns `None` and never raises. -/
theorem normalize_good_val {tok : List Char} (h : goodTok tok = true) :
    ∃ q : ℚ, normalize_candidateL tok = .ok (some (.num q)) := by
  cases hs : splitRightmostSep tok with
  | none => exact ⟨_, normalize_good_none h hs⟩
  | some tr =>
    obtain ⟨pre, s, suf⟩ := tr
    by_cases hlen : suf.length = 1 ∨ suf.length = 2
    · exact ⟨_, (normalize_good_dec h hs hlen).2⟩
    · exact ⟨_, normalize_good_long h hs hlen⟩


/-! ## `best_price_from_text`: no exception, plain maximum -/

/-- The successfully normalized candidate values of a text (the spec's
candidates after discarding normalization failures). -/
def normVals (text : String) : List ℚ :=
  (find_price_candidates text).filterMap fun t =>
    match normalize_candidate t with
    | .ok (some (.num q)) => some q
    | _ => none

theorem collectVals_good {toks : List String}
    (h : ∀ t ∈ toks, ∃ q : ℚ, normalize_candidate t = .ok (some (.num q))) :
    collectVals toks = .ok ((toks.filterMap fun t =>
      match normalize_candidate t with
      | .ok (some (.num q)) => some q
      | _ => none).map PyDec.num) := by
  induction toks with
  | nil => rfl
  | cons t ts ih =>
    obtain ⟨q, hq⟩ := h t (List.mem_cons_self t ts)
    have hts := ih fun x hx => h x (List.mem_cons_of_mem t hx)
    simp only [collectVals, hq, hts, List.filterMap_cons, List.map_cons]

theorem collectVals_text (text : String) :
    collectVals (find_price_candidates text) = .ok ((normVals text).map PyDec.num) := by
  unfold normVals
  refine collectVals_good ?_
  intro t ht
  exact normalize_good_val (token_good ht)

theorem pyFilterGe100_map (qs : List ℚ) :
    pyFilterGe100 (qs.map PyDec.num) = .ok ((qs.filter fun q => 100 ≤ q).map PyDec.num) := by
  induction qs with
  | nil => rfl
  | cons q qs ih =>
    simp only [List.map_cons, pyFilterGe100, pyGe100, ih, List.filter_cons]
    by_cases h : (100 : ℚ) ≤ q
    · simp [h]
    · simp [h]

theorem pyMax2_num (a b : ℚ) : pyMax2 (.num a) (.num b) = .ok (.num (max a b)) := by
  unfold pyMax2 pyGtE
  by_cases h : a < b
  · simp [h, max_eq_right h.le]
  · simp [h, max_eq_left (not_lt.mp h)]

theorem pyMaxFold_map (a : ℚ) (qs : List ℚ) :
    pyMaxFold (.num a) (qs.map PyDec.num) = .ok (.num (qs.foldl max a)) := by
  induction qs generalizing a with
  | nil => rfl
  | cons q qs ih =>
    simp only [List.map_cons, pyMaxFold, pyMax2_num, List.foldl_cons, ih]

theorem foldl_max_mem (qs : List ℚ) (a : ℚ) : qs.foldl max a = a ∨ qs.foldl max a ∈ qs := by
  induction qs generalizing a with
  | nil => exact Or.inl rfl
  | cons q qs ih =>
    rw [List.foldl_cons]
    rcases ih (max a q) with h | h
    · rcases max_choice a q with hm | hm
      · exact Or.inl (h.trans hm)
      · exact Or.inr (by rw [h, hm]; exact List.mem_cons_self _ _)
    · exact Or.inr (List.mem_cons_of_mem _ h)

theorem le_foldl_max_init (qs : List ℚ) (a : ℚ) : a ≤ qs.foldl max a := by
  induction qs generalizing a with
  | nil => exact le_rfl
  | cons q qs ih => exact le_trans (le_max_left a q) (ih (max a q))

theorem le_foldl_max_mem (qs : List ℚ) (a x : ℚ) (h : x ∈ qs) : x ≤ qs.foldl max a := by
  induction qs generalizing a with
  | nil => cases h
  | cons q qs ih =>
    rw [List.foldl_cons]
    rcases List.mem_cons.mp h with rfl | h
    · exact le_trans (le_max_right a x) (le_foldl_max_init qs (max a x))
    · exact ih (max a q) h

/-- The maximum of the `≥ 100` sub-list, when non-empty, is the overall
maximum: the floor never changes the selected value. -/
theorem foldl_max_filter {v w : ℚ} {vs ws : List ℚ}
    (hf : (v :: vs).filter (fun q => 100 ≤ q) = w :: ws) :
    ws.foldl max w = vs.foldl max v := by
  have hsub : ∀ x, x ∈ w :: ws → x ∈ v :: vs := by
    intro x hx
    rw [← hf] at hx
    exact List.mem_of_mem_filter hx
  have hle_all : ∀ x, x ∈ v :: vs → x ≤ vs.foldl max v := by
    intro x hx
    rcases List.mem_cons.mp hx with rfl | hx
    · exact le_foldl_max_init vs x
    · exact le_foldl_max_mem vs v x hx
  have hle_allB : ∀ x, x ∈ w :: ws → x ≤ ws.foldl max w := by
    intro x hx
    rcases List.mem_cons.mp hx with rfl | hx
    · exact le_foldl_max_init ws x
    · exact le_foldl_max_mem ws w x hx
  have hBmem : ws.foldl max w ∈ w :: ws := by
    rcases foldl_max_mem ws w with h | h
    · rw [h]; exact List.mem_cons_self _ _
    · exact List.mem_cons_of_mem _ h
  have hAmem : vs.foldl max v ∈ v :: vs := by
    rcases foldl_max_mem vs v with h | h
    · rw [h]; exact List.mem_cons_self _ _
    · exact List.mem_cons_of_mem _ h
  have hBle : ws.foldl max w ≤ vs.foldl max v := hle_all _ (hsub _ hBmem)
  have h100w : (100 : ℚ) ≤ w := by
    have hwf : w ∈ (v :: vs).filter (fun q => 100 ≤ q) := by
      rw [hf]; exact List.mem_cons_self _ _
    have := (List.mem_filter.mp hwf).2
    simpa using this
  have hwA : w ≤ vs.foldl max v := hle_all w (hsub w (List.mem_cons_self _ _))
  have hAfil : vs.foldl max v ∈ (v :: vs).filter (fun q => 100 ≤ q) := by
    refine List.mem_filter.mpr ⟨hAmem, ?_⟩
    simpa using le_trans h100w hwA
  have hAle : vs.foldl max v ≤ ws.foldl max w := by
    rw [hf] at hAfil
    exact hle_allB _ hAfil
  exact le_antisymm hBle hAle

/-- `best_price_from_text` never raises, and its result is the plain
maximum of the normalized candidates. -/
theorem best_price_eq (text : String) :
    best_price_from_text text =
      .ok (match normVals text with
           | [] => none
           | v :: vs => some (.num (vs.foldl max v))) := by
  unfold best_price_from_text
  rw [collectVals_text]
  cases hq : normVals text with
  | nil => rfl
  | cons v vs =>
    have hfil := pyFilterGe100_map (v :: vs)
    cases hf : (v :: vs).filter (fun q => 100 ≤ q) with
    | nil =>
      rw [hf] at hfil
      simp only [List.map_cons, List.map_nil] at hfil
      simp only [List.map_cons, hfil, pyMaxFold_map]
    | cons w ws =>
      rw [hf] at hfil
      simp only [List.map_cons] at hfil
      simp only [List.map_cons, hfil, pyMaxFold_map, foldl_max_filter hf]


/-! ## The fetch retry loop -/

/-- An attempt answered with HTTP 403 or 429. -/
def blockedA : Attempt → Bool
  | .resp st _ => st = 403 || st = 429
  | .exc => false

/-- The status of the last attempt (what `last_status` holds after the loop). -/
def lastStatus : List Attempt → Option Nat
  | [] => none
  | [.resp st _] => some st
  | [.exc] => none
  | _ :: b :: rest => lastStatus (b :: rest)

/-- The back-off sleeps of a run of consecutive failing attempts starting at
attempt number `i`: `pause * i, pause * (i+1), ...`. -/
def sleepsFrom (pause : ℚ) (i : ℕ) : ℕ → List ℚ
  | 0 => []
  | n + 1 => pause * (i : ℚ) :: sleepsFrom pause (i + 1) n

theorem sleepsFrom_eq_range (pause : ℚ) : ∀ n i,
    sleepsFrom pause i n = (List.range n).map fun k => pause * ((i + k : ℕ) : ℚ) := by
  intro n
  induction n with
  | zero => intro i; rfl
  | succ n ih =>
    intro i
    show pause * (i : ℚ) :: sleepsFrom pause (i + 1) n = _
    rw [ih (i + 1), List.range_succ_eq_map, List.map_cons, List.map_map, List.cons.injEq]
    constructor
    · norm_num
    · refine List.map_congr_left ?_
      intro k hk
      show pause * (((i + 1 + k : ℕ)) : ℚ) = pause * (((i + (k + 1) : ℕ)) : ℚ)
      exact congrArg (fun q : ℚ => pause * q) (congrArg Nat.cast (by omega))

theorem get_htmlAux_404 (pause : ℚ) (b : String) (rest : List Attempt) :
    ∀ pre, (∀ a ∈ pre, blockedA a = true) → ∀ i last,
    get_htmlAux pause (pre ++ .resp 404 b :: rest) i last =
      ((none, some 404), sleepsFrom pause i pre.length) := by
  intro pre
  induction pre with
  | nil =>
    intro hpre i last
    simp [get_htmlAux, sleepsFrom]
  | cons a pre2 ih =>
    intro hpre i last
    have ha := hpre a (List.mem_cons_self _ _)
    cases a with
    | exc => simp [blockedA] at ha
    | resp st body =>
      have hst : st = 403 ∨ st = 429 := by simpa [blockedA] using ha
      have hih := ih (fun x hx => hpre x (List.mem_cons_of_mem _ hx)) (i + 1) (some st)
      rcases hst with rfl | rfl <;>
      · rw [List.cons_append]
        simp only [get_htmlAux, hih]
        norm_num
        rfl

theorem get_htmlAux_blocked (pause : ℚ) :
    ∀ atts, atts ≠ [] → (∀ a ∈ atts, blockedA a = true) → ∀ i last,
    get_htmlAux pause atts i last =
      ((none, lastStatus atts), sleepsFrom pause i atts.length) := by
  intro atts
  induction atts with
  | nil => intro h; exact absurd rfl h
  | cons a atts2 ih =>
    intro _ hpre i last
    have ha := hpre a (List.mem_cons_self _ _)
    cases a with
    | exc => simp [blockedA] at ha
    | resp st body =>
      have hst : st = 403 ∨ st = 429 := by simpa [blockedA] using ha
      cases atts2 with
      | nil =>
        rcases hst with rfl | rfl <;>
        · simp [get_htmlAux, lastStatus, sleepsFrom]
      | cons a2 rest2 =>
        have hih := ih (by simp) (fun x hx => hpre x (List.mem_cons_of_mem _ hx))
          (i + 1) (some st)
        rcases hst with rfl | rfl <;>
        · simp only [get_htmlAux, hih, lastStatus]
          norm_num
          rfl

theorem get_html_404 (pause : ℚ) (retries : Nat) (pre rest : List Attempt) (b : String)
    (hpre : ∀ a ∈ pre, blockedA a = true) (hlen : pre.length < retries) :
    get_html pause retries (pre ++ .resp 404 b :: rest) =
      ((none, some 404), sleepsFrom pause 1 pre.length) := by
  unfold get_html
  obtain ⟨m, hm⟩ : ∃ m, retries - pre.length = m + 1 := by
    refine ⟨retries - pre.length - 1, ?_⟩
    omega
  have htake : (pre ++ Attempt.resp 404 b :: rest).take retries =
      pre ++ Attempt.resp 404 b :: rest.take m := by
    rw [List.take_append_eq_append_take, List.take_of_length_le (le_of_lt hlen), hm,
      List.take_succ_cons]
  rw [htake]
  exact get_htmlAux_404 pause b (rest.take m) pre hpre 1 none

theorem get_html_blocked (pause : ℚ) (atts : List Attempt) (hne : atts ≠ [])
    (hall : ∀ a ∈ atts, blockedA a = true) :
    get_html pause atts.length atts =
      ((none, lastStatus atts), sleepsFrom pause 1 atts.length) := by
  unfold get_html
  rw [List.take_length]
  exact get_htmlAux_blocked pause atts hne hall 1 none


/-! ## Branch dispatch for the per-product body -/

def docEmpty : Doc := ⟨fun _ => none, none, none, []⟩

def docMeta1200 : Doc := ⟨fun _ => none, some "1200", none, []⟩

theorem stepProduct_404 {dry : Bool} {html : Option String} {status : Option Nat} {doc : Doc}
    {sel : Option String} {row : Row} (h : status = some 404) :
    stepProduct dry html status doc sel row = terminalStep dry row := by
  simp [stepProduct, h]

theorem stepProduct_disc {dry : Bool} {h : String} {status : Option Nat} {doc : Doc}
    {sel : Option String} {row : Row} (h404 : status ≠ some 404) (hne : h ≠ "")
    (hdisc : is_discontinued h = true) :
    stepProduct dry (some h) status doc sel row = terminalStep dry row := by
  simp [stepProduct, h404, truthyStr, hne, hdisc]

theorem stepProduct_nohtml {dry : Bool} {html : Option String} {status : Option Nat} {doc : Doc}
    {sel : Option String} {row : Row} (h404 : status ≠ some 404) (hth : truthyStr html = none) :
    stepProduct dry html status doc sel row =
      (if status = some 403 then ⟨row, .defer .blocked403, none, ⟨1, 0, 0, 1⟩⟩
       else ⟨row, .defer .fetchFail, none, ⟨1, 0, 1, 0⟩⟩) := by
  simp [stepProduct, h404, hth]

theorem stepProduct_extract {dry : Bool} {h : String} {status : Option Nat} {doc : Doc}
    {sel : Option String} {row : Row} (h404 : status ≠ some 404) (hne : h ≠ "")
    (hdisc : is_discontinued h = false) :
    stepProduct dry (some h) status doc sel row =
      (match extract_price doc sel with
       | .error _ => ⟨row, .defer .exnCaught, none, ⟨1, 0, 1, 0⟩⟩
       | .ok none => ⟨row, .defer .noPrice, none, ⟨1, 0, 1, 0⟩⟩
       | .ok (some d) =>
         match as_kc_int d with
         | .error _ => ⟨row, .defer .exnCaught, none, ⟨1, 0, 1, 0⟩⟩
         | .ok np =>
           if row.price = some np then ⟨row, .noChange, none, ⟨1, 0, 0, 0⟩⟩
           else if dry then ⟨row, .setPrice np, none, ⟨1, 0, 0, 0⟩⟩
           else ⟨update_price row np row.price, .setPrice np, some (np, row.price),
             ⟨1, 1, 0, 0⟩⟩) := by
  simp [stepProduct, h404, truthyStr, hne, hdisc]

theorem terminalStep_price (row : Row) : (terminalStep false row).row.price = some 1 := by
  by_cases hp1 : row.price = some 1
  · simp [terminalStep, hp1]
  · cases hop : row.price with
    | none => simp [terminalStep, hp1, hop, update_price]
    | some p =>
      have hp : p ≠ 1 := fun hh => hp1 (by rw [hop, hh])
      simp [terminalStep, hp1, hop, update_price, hp]

theorem terminalStep_noop {row : Row} (h : row.price = some 1) :
    terminalStep false row = ⟨row, .noChange, none, ⟨1, 0, 0, 0⟩⟩ := by
  simp [terminalStep, h]

theorem terminalStep_decision (dry : Bool) (row : Row) :
    (terminalStep dry row).decision = .noChange ∨ (terminalStep dry row).decision = .setTerminal := by
  by_cases hp1 : row.price = some 1
  · simp [terminalStep, hp1]
  · by_cases hd : dry = true <;> simp [terminalStep, hp1, hd]


/-! ## Concrete evaluations -/

theorem norm_concrete_10690 : normalize_candidate "10 690.50" =
    .ok (some (.num (10690.50 : ℚ))) := by
  have h := @normalize_good_dec "10 690.50".data "10 690".data ['5', '0'] '.'
    (by decide) (by decide) (by decide)
  show normalize_candidateL "10 690.50".data = _
  rw [h.2, show digitsToNat (List.filter (fun c => !priceSep c) "10 690".data) = 10690
      from by decide,
    show digitsToNat ['5', '0'] = 50 from by decide,
    show (['5', '0'] : List Char).length = 2 from rfl]
  norm_num

theorem norm_concrete_123 : normalize_candidate "1.23" = .ok (some (.num (1.23 : ℚ))) := by
  have h := @normalize_good_dec "1.23".data ['1'] ['2', '3'] '.'
    (by decide) (by decide) (by decide)
  show normalize_candidateL "1.23".data = _
  rw [h.2, show digitsToNat (List.filter (fun c => !priceSep c) ['1']) = 1 from by decide,
    show digitsToNat ['2', '3'] = 23 from by decide,
    show (['2', '3'] : List Char).length = 2 from rfl]
  norm_num

theorem norm_concrete_1234 : normalize_candidate "1.234" = .ok (some (.num 1234)) := by
  have h := @normalize_good_long "1.234".data ['1'] ['2', '3', '4'] '.'
    (by decide) (by decide) (by decide)
  show normalize_candidateL "1.234".data = _
  rw [h, show digitsToNat ("1.234".data.filter isDig) = 1234 from by decide]
  norm_num

theorem norm_concrete_45 : normalize_candidate "45" = .ok (some (.num 45)) := by
  have h := @normalize_good_none "45".data (by decide) (by decide)
  show normalize_candidateL "45".data = _
  rw [h, show digitsToNat ("45".data.filter isDig) = 45 from by decide]
  norm_num

theorem norm_concrete_139 : normalize_candidate "139" = .ok (some (.num 139)) := by
  have h := @normalize_good_none "139".data (by decide) (by decide)
  show normalize_candidateL "139".data = _
  rw [h, show digitsToNat ("139".data.filter isDig) = 139 from by decide]
  norm_num

theorem norm_concrete_41990 : normalize_candidate "41 990" = .ok (some (.num 41990)) := by
  have h := @normalize_good_none "41 990".data (by decide) (by decide)
  show normalize_candidateL "41 990".data = _
  rw [h, show digitsToNat ("41 990".data.filter isDig) = 41990 from by decide]
  norm_num

theorem norm_concrete_1200 : normalize_candidate "1200" = .ok (some (.num 1200)) := by
  have h := @normalize_good_none "1200".data (by decide) (by decide)
  show normalize_candidateL "1200".data = _
  rw [h, show digitsToNat ("1200".data.filter isDig) = 1200 from by decide]
  norm_num

theorem norm_concrete_2590 : normalize_candidate "2 590,-" = .ok (some (.num 2590)) := by
  have h1 : ("2 590,-".data : List Char) ≠ [] := by decide
  have h2 : commaDashSub (pyStrip (normSpacesL "2 590,-".data)) = "2 590,-".data := by decide
  have h3 : splitRightmostSep "2 590,-".data = some ("2 590".data, ',', ['-']) := by decide
  show normalize_candidateL "2 590,-".data = _
  unfold normalize_candidateL
  rw [if_neg h1]
  simp only [h2, h3]
  rw [if_pos (show (['-'] : List Char).length = 1 ∨ (['-'] : List Char).length = 2 from by decide)]
  simp only [decBranch]
  rw [show List.filter (fun c => !priceSep c) "2 590".data = ['2', '5', '9', '0'] from by decide,
    show List.filter isDig ['-'] = [] from by decide]
  rw [if_neg (show ¬(['2', '5', '9', '0'] : List Char) = [] from by decide)]
  rw [pyDecimal_dotted (by decide) (by decide) (by decide)]
  rw [show digitsToNat ['2', '5', '9', '0'] = 2590 from by decide,
    show digitsToNat ([] : List Char) = 0 from rfl,
    show (([] : List Char)).length = 0 from rfl]
  norm_num

theorem best_concrete_1200 : best_price_from_text "1200" = .ok (some (.num 1200)) := by
  have hfc : find_price_candidates "1200" = ["1200"] := by decide
  have hnv : normVals "1200" = [(1200 : ℚ)] := by
    unfold normVals
    rw [hfc]
    simp [List.filterMap_cons, norm_concrete_1200]
  rw [best_price_eq, hnv]
  rfl

theorem best_concrete_45 : best_price_from_text "45" = .ok (some (.num 45)) := by
  have hfc : find_price_candidates "45" = ["45"] := by decide
  have hnv : normVals "45" = [(45 : ℚ)] := by
    unfold normVals
    rw [hfc]
    simp [List.filterMap_cons, norm_concrete_45]
  rw [best_price_eq, hnv]
  rfl

theorem best_concrete_139_41990 :
    best_price_from_text "139 41 990" = .ok (some (.num 41990)) := by
  have hfc : find_price_candidates "139 41 990" = ["139", "41 990"] := by decide
  have hnv : normVals "139 41 990" = [(139 : ℚ), (41990 : ℚ)] := by
    unfold normVals
    rw [hfc]
    simp [List.filterMap_cons, norm_concrete_139, norm_concrete_41990]
  rw [best_price_eq, hnv]
  show Except.ok (some (PyDec.num (List.foldl max (139 : ℚ) [41990]))) = _
  rw [show List.foldl max (139 : ℚ) [41990] = max 139 41990 from rfl,
    max_eq_right (by norm_num : (139 : ℚ) ≤ 41990)]

theorem extract_concrete_1200 : extract_price docMeta1200 none = .ok (some (.num 1200)) := by
  show tier2 docMeta1200 = _
  simp [tier2, docMeta1200, best_concrete_1200]

theorem askc_concrete_1200 : as_kc_int (.num 1200) = .ok 1200 := by
  show Except.ok (roundHalfUp 1200) = _
  unfold roundHalfUp
  rw [if_pos (by norm_num : (0 : ℚ) ≤ 1200)]
  norm_num [Int.floor_eq_iff]

theorem scenario_1200 (op : Option ℤ) :
    (stepProduct false (some "h") (some 200) docMeta1200 none ⟨some 1000, op⟩).row =
      ⟨some 1200, some 1000⟩ := by
  rw [stepProduct_extract (by decide) (by decide) (by decide)]
  simp only [extract_concrete_1200, askc_concrete_1200]
  rw [if_neg (show ¬(some (1000 : ℤ) = some 1200) from by decide)]
  rfl


/-! ## Helpers for the claims -/

theorem truthy_some {html : Option String} {h : String} (ht : truthyStr html = some h) :
    html = some h ∧ h ≠ "" := by
  cases html with
  | none => exact absurd ht (by simp [truthyStr])
  | some s =>
    by_cases hs : s = ""
    · simp [truthyStr, hs] at ht
    · simp only [truthyStr, if_neg hs, Option.some.injEq] at ht
      subst ht
      exact ⟨rfl, hs⟩

theorem update_price_fields (row : Row) (np : ℤ) (prev : Option ℤ) :
    (update_price row np prev).price = some np ∧
      (update_price row np prev).old_price =
        (if prev = none then row.old_price else prev) := by
  cases prev <;> simp [update_price]

theorem scenario_full_1200 (op : Option ℤ) :
    stepProduct false (some "h") (some 200) docMeta1200 none ⟨some 1000, op⟩ =
      ⟨⟨some 1200, some 1000⟩, .setPrice 1200, some (1200, some 1000), ⟨1, 1, 0, 0⟩⟩ := by
  rw [stepProduct_extract (by decide) (by decide) (by decide)]
  simp only [extract_concrete_1200, askc_concrete_1200]
  rw [if_neg (show ¬(some (1000 : ℤ) = some 1200) from by decide)]
  rfl

theorem stepProduct_change_dec (dry : Bool) (html : Option String) (status : Option Nat)
    (doc : Doc) (sel : Option String) (row : Row) :
    ((stepProduct dry html status doc sel row).row ≠ row →
      (∃ v, (stepProduct dry html status doc sel row).decision = Decision.setPrice v) ∨
        (stepProduct dry html status doc sel row).decision = Decision.setTerminal) ∧
    ((stepProduct dry html status doc sel row).decision = Decision.noChange →
      (stepProduct dry html status doc sel row).row = row) := by
  have hterm : ∀ d : Bool, ∀ r : Row,
      (((terminalStep d r).row ≠ r →
        (∃ v, (terminalStep d r).decision = Decision.setPrice v) ∨
          (terminalStep d r).decision = Decision.setTerminal) ∧
        ((terminalStep d r).decision = Decision.noChange → (terminalStep d r).row = r)) := by
    intro d r
    by_cases hp : r.price = some 1
    · simp [terminalStep, hp]
    · cases d <;> simp [terminalStep, hp]
  by_cases h404 : status = some 404
  · rw [stepProduct_404 h404]
    exact hterm dry row
  · cases htr : truthyStr html with
    | none =>
      rw [stepProduct_nohtml h404 htr]
      by_cases h403 : status = some 403 <;> simp [h403]
    | some h =>
      obtain ⟨hhtml, hne⟩ := truthy_some htr
      subst hhtml
      cases hdisc : is_discontinued h with
      | true =>
        rw [stepProduct_disc h404 hne hdisc]
        exact hterm dry row
      | false =>
        rw [stepProduct_extract h404 hne hdisc]
        cases hex : extract_price doc sel with
        | error e => simp [hex]
        | ok o =>
          cases o with
          | none => simp [hex]
          | some d =>
            cases hkc : as_kc_int d with
            | error e => simp [hex, hkc]
            | ok np =>
              by_cases hpeq : row.price = some np
              · simp [hex, hkc, hpeq]
              · cases dry
                · simp [hex, hkc, hpeq]
                · simp [hex, hkc, hpeq]

/-- C1: a product row is rewritten only by a `SetPrice` or `SetTerminal`
decision; `old_price` receives the previous `price` exactly when it was
non-null; a `NoChange` decision leaves the row untouched; and the end-to-end
scenario (stored price 1000, document yielding 1200) persists
`{price: 1200, old_price: 1000}`. -/
theorem claim_c1 (dry : Bool) (html : Option String) (status : Option Nat) (doc : Doc)
    (sel : Option String) (row : Row) (op : Option ℤ) :
    ((stepProduct dry html status doc sel row).row ≠ row →
      (∃ v, (stepProduct dry html status doc sel row).decision = Decision.setPrice v) ∨
        (stepProduct dry html status doc sel row).decision = Decision.setTerminal) ∧
    ((stepProduct dry html status doc sel row).decision = Decision.noChange →
      (stepProduct dry html status doc sel row).row = row) ∧
    (∀ np : ℤ, (update_price row np row.price).price = some np ∧
      (update_price row np row.price).old_price =
        (if row.price = none then row.old_price else row.price)) ∧
    (stepProduct false (some "h") (some 200) docMeta1200 none ⟨some 1000, op⟩).row =
      ⟨some 1200, some 1000⟩ ∧
    (stepProduct false (some "h") (some 200) docMeta1200 none ⟨some 1000, op⟩).decision =
      Decision.setPrice 1200 := by
  refine ⟨(stepProduct_change_dec dry html status doc sel row).1,
    (stepProduct_change_dec dry html status doc sel row).2,
    fun np => update_price_fields row np row.price, ?_, ?_⟩
  · rw [scenario_full_1200 op]
  · rw [scenario_full_1200 op]

/-- C2 (amended): a fetched document carrying the terminal marker is decided
by the terminal branch, which never yields `SetPrice`; it yields
`SetTerminal` exactly when the stored price is not already the sentinel 1,
and `NoChange` otherwise (the frozen claim says `SetTerminal`
unconditionally). -/
theorem claim_c2 (dry : Bool) (html : Option String) (status : Option Nat) (doc : Doc)
    (sel : Option String) (row : Row) (h : String) (ht : truthyStr html = some h)
    (hdisc : is_discontinued h = true) (h404 : status ≠ some 404) :
    ((stepProduct dry html status doc sel row).decision = Decision.setTerminal ∨
      (stepProduct dry html status doc sel row).decision = Decision.noChange) ∧
    (∀ v, (stepProduct dry html status doc sel row).decision ≠ Decision.setPrice v) ∧
    ((stepProduct dry html status doc sel row).decision = Decision.setTerminal ↔
      row.price ≠ some 1) := by
  obtain ⟨hhtml, hne⟩ := truthy_some ht
  subst hhtml
  rw [stepProduct_disc h404 hne hdisc]
  by_cases hp : row.price = some 1
  · simp [terminalStep, hp]
  · cases dry <;> simp [terminalStep, hp]

theorem claim_c2_witness :
    truthyStr (some "Prodej skončil") = some "Prodej skončil" ∧
    is_discontinued "Prodej skončil" = true ∧
    (some 200 : Option Nat) ≠ some 404 ∧
    (((stepProduct false (some "Prodej skončil") (some 200) docEmpty none
        ⟨some 1000, none⟩).decision = Decision.setTerminal ∨
      (stepProduct false (some "Prodej skončil") (some 200) docEmpty none
        ⟨some 1000, none⟩).decision = Decision.noChange) ∧
    (∀ v, (stepProduct false (some "Prodej skončil") (some 200) docEmpty none
        ⟨some 1000, none⟩).decision ≠ Decision.setPrice v) ∧
    ((stepProduct false (some "Prodej skončil") (some 200) docEmpty none
        ⟨some 1000, none⟩).decision = Decision.setTerminal ↔
      (⟨some 1000, none⟩ : Row).price ≠ some 1)) :=
  ⟨by decide, by decide, by decide,
   claim_c2 false (some "Prodej skončil") (some 200) docEmpty none ⟨some 1000, none⟩
     "Prodej skončil" (by decide) (by decide) (by decide)⟩

theorem claim_c2_counterexample :
    is_discontinued "Prodej skončil" = true ∧
    (stepProduct false (some "Prodej skončil") (some 200) docEmpty none
        ⟨some 1, none⟩).decision = Decision.noChange ∧
    (stepProduct false (some "Prodej skončil") (some 200) docEmpty none
        ⟨some 1, none⟩).decision ≠ Decision.setTerminal := by
  refine ⟨by decide, ?_, ?_⟩
  · rw [stepProduct_disc (by decide) (by decide) (by decide), terminalStep_noop rfl]
  · rw [stepProduct_disc (by decide) (by decide) (by decide), terminalStep_noop rfl]
    decide

/-- C3: on every token the tokenizer can produce, the rightmost dot or comma
is taken as the decimal separator exactly when 1-2 digits follow it (the
other separators being stripped from the integer part); otherwise all
separators are stripped and the value is the plain digit string; with the
spec's four concrete examples. -/
theorem claim_c3 (text t : String) (ht : t ∈ find_price_candidates text) :
    (∀ pre suf : List Char, ∀ s : Char, splitRightmostSep t.data = some (pre, s, suf) →
      ((suf.length = 1 ∨ suf.length = 2) →
        normalize_candidate t = .ok (some (.num
          ((digitsToNat (pre.filter fun c => !priceSep c) : ℚ) +
            (digitsToNat suf : ℚ) / 10 ^ suf.length)))) ∧
      (¬(suf.length = 1 ∨ suf.length = 2) →
        normalize_candidate t = .ok (some (.num (digitsToNat (t.data.filter isDig) : ℚ))))) ∧
    (splitRightmostSep t.data = none →
      normalize_candidate t = .ok (some (.num (digitsToNat (t.data.filter isDig) : ℚ)))) ∧
    normalize_candidate "2 590,-" = .ok (some (.num 2590)) ∧
    normalize_candidate "10 690.50" = .ok (some (.num (10690.50 : ℚ))) ∧
    normalize_candidate "1.234" = .ok (some (.num 1234)) ∧
    normalize_candidate "1.23" = .ok (some (.num (1.23 : ℚ))) := by
  have hg := token_good ht
  refine ⟨?_, ?_, norm_concrete_2590, norm_concrete_10690, norm_concrete_1234,
    norm_concrete_123⟩
  · intro pre suf s hs
    exact ⟨fun hlen => (normalize_good_dec hg hs hlen).2,
      fun hlen => normalize_good_long hg hs hlen⟩
  · intro hs
    exact normalize_good_none hg hs

theorem claim_c3_witness :
    ("1.23" ∈ find_price_candidates "1.23") ∧
    splitRightmostSep "1.23".data = some (['1'], '.', ['2', '3']) ∧
    ((['2', '3'] : List Char).length = 1 ∨ (['2', '3'] : List Char).length = 2) ∧
    normalize_candidate "1.23" = .ok (some (.num
      ((digitsToNat (['1'].filter fun c => !priceSep c) : ℚ) +
        (digitsToNat ['2', '3'] : ℚ) / 10 ^ (['2', '3'] : List Char).length))) :=
  ⟨by decide, by decide, by decide,
   (((claim_c3 "1.23" "1.23" (by decide)).1 ['1'] ['2', '3'] '.' (by decide)).1 (by decide))⟩

/-- C4 (amended): on the tokenizer's output domain the Normalizer is total
and always returns a value; on arbitrary strings, however, it can abort with
a raised `InvalidOperation` (modelled `.error ()`), a failure mode beyond
the claimed value-or-NotANumber contract. -/
theorem claim_c4 (text t : String) (ht : t ∈ find_price_candidates text) :
    ∃ q : ℚ, normalize_candidate t = .ok (some (.num q)) :=
  normalize_good_val (token_good ht)

theorem claim_c4_witness :
    ("45" ∈ find_price_candidates "45") ∧
    ∃ q : ℚ, normalize_candidate "45" = .ok (some (.num q)) :=
  ⟨by decide, claim_c4 "45" "45" (by decide)⟩

theorem claim_c4_counterexample : normalize_candidate "abc" = .error () := by decide


theorem normVals_45 : normVals "45" = [(45 : ℚ)] := by
  have hfc : find_price_candidates "45" = ["45"] := by decide
  unfold normVals
  rw [hfc]
  simp [List.filterMap_cons, norm_concrete_45]

/-- C5: among the successfully normalized candidate values, the engine picks
the maximum of the values ≥ 100 when any exists, else the maximum overall;
in particular `{139, 41990}` yields 41990 and `{45}` yields 45. -/
theorem claim_c5 (text : String) (v : ℚ) (vs : List ℚ) (h : normVals text = v :: vs) :
    (((v :: vs).filter (fun q => 100 ≤ q) = [] →
        best_price_from_text text = .ok (some (.num (vs.foldl max v)))) ∧
      (∀ w : ℚ, ∀ ws : List ℚ, (v :: vs).filter (fun q => 100 ≤ q) = w :: ws →
        best_price_from_text text = .ok (some (.num (ws.foldl max w))))) ∧
    best_price_from_text "139 41 990" = .ok (some (.num 41990)) ∧
    best_price_from_text "45" = .ok (some (.num 45)) := by
  refine ⟨⟨?_, ?_⟩, best_concrete_139_41990, best_concrete_45⟩
  · intro hfil
    rw [best_price_eq, h]
  · intro w ws hf
    rw [best_price_eq, h]
    show Except.ok (some (PyDec.num (vs.foldl max v))) = _
    rw [foldl_max_filter hf]

theorem claim_c5_witness :
    normVals "45" = [(45 : ℚ)] ∧
    (((((45 : ℚ) :: []).filter (fun q => 100 ≤ q) = [] →
        best_price_from_text "45" = .ok (some (.num (([] : List ℚ).foldl max 45)))) ∧
      (∀ w : ℚ, ∀ ws : List ℚ, ((45 : ℚ) :: []).filter (fun q => 100 ≤ q) = w :: ws →
        best_price_from_text "45" = .ok (some (.num (ws.foldl max w))))) ∧
    best_price_from_text "139 41 990" = .ok (some (.num 41990)) ∧
    best_price_from_text "45" = .ok (some (.num 45))) :=
  ⟨normVals_45, claim_c5 "45" 45 [] normVals_45⟩

/-- C6: an HTTP 404 answer returns `(None, 404)` at once, with no further
attempt made and only the sleeps of the preceding blocked attempts; all-
blocked (403/429) attempts are retried with back-off `pause * attempt_number`
until exhausted, after which the last status is returned. -/
theorem claim_c6 (pause : ℚ) (retries : Nat) (pre rest : List Attempt) (b : String)
    (atts : List Attempt) (hpre : ∀ a ∈ pre, blockedA a = true) (hlen : pre.length < retries)
    (hne : atts ≠ []) (hall : ∀ a ∈ atts, blockedA a = true) :
    get_html pause retries (pre ++ .resp 404 b :: rest) =
      ((none, some 404), sleepsFrom pause 1 pre.length) ∧
    get_html pause atts.length atts =
      ((none, lastStatus atts), sleepsFrom pause 1 atts.length) ∧
    sleepsFrom pause 1 atts.length =
      (List.range atts.length).map fun k => pause * ((1 + k : ℕ) : ℚ) :=
  ⟨get_html_404 pause retries pre rest b hpre hlen,
   get_html_blocked pause atts hne hall,
   sleepsFrom_eq_range pause atts.length 1⟩

theorem claim_c6_witness :
    (∀ a ∈ [Attempt.resp 403 ""], blockedA a = true) ∧
    ([Attempt.resp 403 ""] : List Attempt).length < 3 ∧
    ([Attempt.resp 403 "", Attempt.resp 429 ""] : List Attempt) ≠ [] ∧
    (∀ a ∈ [Attempt.resp 403 "", Attempt.resp 429 ""], blockedA a = true) ∧
    (get_html 2 3 ([Attempt.resp 403 ""] ++ .resp 404 "" :: []) =
        ((none, some 404), sleepsFrom 2 1 ([Attempt.resp 403 ""] : List Attempt).length) ∧
      get_html 2 ([Attempt.resp 403 "", Attempt.resp 429 ""] : List Attempt).length
          [Attempt.resp 403 "", Attempt.resp 429 ""] =
        ((none, lastStatus [Attempt.resp 403 "", Attempt.resp 429 ""]),
          sleepsFrom 2 1 ([Attempt.resp 403 "", Attempt.resp 429 ""] : List Attempt).length) ∧
      sleepsFrom 2 1 ([Attempt.resp 403 "", Attempt.resp 429 ""] : List Attempt).length =
        (List.range ([Attempt.resp 403 "", Attempt.resp 429 ""] : List Attempt).length).map
          fun k => 2 * ((1 + k : ℕ) : ℚ)) :=
  ⟨by decide, by decide, by decide, by decide,
   claim_c6 2 3 [Attempt.resp 403 ""] [] "" [Attempt.resp 403 "", Attempt.resp 429 ""]
     (by decide) (by decide) (by decide) (by decide)⟩

/-- C7: three consecutive 503 answers exhaust the retries and yield
`(None, 503)` without an exception escaping; the per-product body then
defers with an error count, no write, and the row untouched. -/
theorem claim_c7 (pause : ℚ) (b : String) (doc : Doc) (sel : Option String) (row : Row) :
    get_html pause 3 [.resp 503 b, .resp 503 b, .resp 503 b] =
      ((none, some 503), sleepsFrom pause 1 3) ∧
    stepProduct false none (some 503) doc sel row =
      ⟨row, .defer .fetchFail, none, ⟨1, 0, 1, 0⟩⟩ := by
  constructor
  · rfl
  · rw [@stepProduct_nohtml false none (some 503) doc sel row (by decide) rfl]
    rw [if_neg (show ¬(some 503 : Option Nat) = some 403 from by decide)]


theorem update_price_price (row : Row) (np : ℤ) (prev : Option ℤ) :
    (update_price row np prev).price = some np := by
  cases prev <;> simp [update_price]

/-- C8 (amended): rerunning the per-product body on the row the first run
left, with unchanged fetch outcome and document, yields `NoChange` and no
write whenever the first run decided `SetPrice`, `SetTerminal` or
`NoChange`; a first-run `Defer`, however, is repeated verbatim on the second
run (the frozen claim says every second run is `NoChange`). -/
theorem claim_c8 (html : Option String) (status : Option Nat) (doc : Doc)
    (sel : Option String) (row : Row) :
    (((∃ v, (stepProduct false html status doc sel row).decision = Decision.setPrice v) ∨
        (stepProduct false html status doc sel row).decision = Decision.setTerminal ∨
        (stepProduct false html status doc sel row).decision = Decision.noChange) →
      stepProduct false html status doc sel (stepProduct false html status doc sel row).row =
        ⟨(stepProduct false html status doc sel row).row, Decision.noChange, none,
          ⟨1, 0, 0, 0⟩⟩) ∧
    (∀ rsn, (stepProduct false html status doc sel row).decision = Decision.defer rsn →
      stepProduct false html status doc sel (stepProduct false html status doc sel row).row =
        stepProduct false html status doc sel row) := by
  by_cases h404 : status = some 404
  · simp only [stepProduct_404 h404]
    constructor
    · intro _
      exact terminalStep_noop (terminalStep_price row)
    · intro rsn hd
      exfalso
      rcases terminalStep_decision false row with hde | hde <;> rw [hd] at hde <;>
        exact Decision.noConfusion hde
  · cases htr : truthyStr html with
    | none =>
      simp only [stepProduct_nohtml h404 htr]
      by_cases h403 : status = some 403 <;> simp [h403]
    | some h =>
      obtain ⟨hhtml, hne⟩ := truthy_some htr
      subst hhtml
      cases hdisc : is_discontinued h with
      | true =>
        simp only [stepProduct_disc h404 hne hdisc]
        constructor
        · intro _
          exact terminalStep_noop (terminalStep_price row)
        · intro rsn hd
          exfalso
          rcases terminalStep_decision false row with hde | hde <;> rw [hd] at hde <;>
            exact Decision.noConfusion hde
      | false =>
        simp only [stepProduct_extract h404 hne hdisc]
        cases hex : extract_price doc sel with
        | error e => simp [hex]
        | ok o =>
          cases o with
          | none => simp [hex]
          | some d =>
            cases hkc : as_kc_int d with
            | error e => simp [hex, hkc]
            | ok np =>
              by_cases hpeq : row.price = some np
              · simp [hex, hkc, hpeq]
              · simp [hex, hkc, hpeq, update_price_price]

theorem claim_c8_counterexample :
    (stepProduct false none (some 403) docEmpty none ⟨some 1000, none⟩).decision =
      Decision.defer Reason.blocked403 ∧
    (stepProduct false none (some 403) docEmpty none
        (stepProduct false none (some 403) docEmpty none ⟨some 1000, none⟩).row).decision =
      Decision.defer Reason.blocked403 ∧
    Decision.defer Reason.blocked403 ≠ Decision.noChange := by
  refine ⟨rfl, rfl, by decide⟩

/-- C9 (amended): a dry run never writes and reports the same decision as
the live run, but its statistics zero the `changed` counter (the frozen
claim says all reported statistics coincide). -/
theorem claim_c9 (html : Option String) (status : Option Nat) (doc : Doc)
    (sel : Option String) (row : Row) :
    (stepProduct true html status doc sel row).write = none ∧
    (stepProduct true html status doc sel row).row = row ∧
    (stepProduct true html status doc sel row).decision =
      (stepProduct false html status doc sel row).decision ∧
    (stepProduct true html status doc sel row).stats =
      ⟨(stepProduct false html status doc sel row).stats.processed, 0,
        (stepProduct false html status doc sel row).stats.errors,
        (stepProduct false html status doc sel row).stats.errors403⟩ := by
  by_cases h404 : status = some 404
  · simp only [stepProduct_404 h404]
    by_cases hp : row.price = some 1
    · simp [terminalStep, hp]
    · simp [terminalStep, hp]
  · cases htr : truthyStr html with
    | none =>
      simp only [stepProduct_nohtml h404 htr]
      by_cases h403 : status = some 403 <;> simp [h403]
    | some h =>
      obtain ⟨hhtml, hne⟩ := truthy_some htr
      subst hhtml
      cases hdisc : is_discontinued h with
      | true =>
        simp only [stepProduct_disc h404 hne hdisc]
        by_cases hp : row.price = some 1
        · simp [terminalStep, hp]
        · simp [terminalStep, hp]
      | false =>
        simp only [stepProduct_extract h404 hne hdisc]
        cases hex : extract_price doc sel with
        | error e => simp [hex]
        | ok o =>
          cases o with
          | none => simp [hex]
          | some d =>
            cases hkc : as_kc_int d with
            | error e => simp [hex, hkc]
            | ok np =>
              by_cases hpeq : row.price = some np
              · simp [hex, hkc, hpeq]
              · simp [hex, hkc, hpeq]

theorem claim_c9_counterexample :
    (stepProduct true none (some 404) docEmpty none ⟨some 1000, none⟩).stats ≠
      (stepProduct false none (some 404) docEmpty none ⟨some 1000, none⟩).stats ∧
    (stepProduct false none (some 404) docEmpty none ⟨some 1000, none⟩).write ≠ none := by
  decide

/-- The selection rule as the spec's words state it after C10's collapse:
the plain maximum of all successfully normalized candidates, no ≥ 100
filter. -/
def plain_max_price (text : String) : Except Unit (Option PyDec) :=
  match normVals text with
  | [] => .ok none
  | v :: vs => .ok (some (.num (vs.foldl max v)))

/-- C10: the ≥ 100 installment filter never changes the selected value —
`best_price_from_text` equals the unfiltered plain maximum of the
normalized candidates, and the probe scripts' `pick_best_price_from_text`
is the same function. -/
theorem claim_c10 (text : String) :
    best_price_from_text text = plain_max_price text ∧
    pick_best_price_from_text text = best_price_from_text text := by
  constructor
  · rw [best_price_eq]
    unfold plain_max_price
    cases normVals text <;> rfl
  · rfl

end PC
